import Mathlib

/-!
Verification development for the random 3-SAT hardness workbench
(`satSolver` core: instance generation, DPLL exact solver, simulated
annealing local search, structural autopsy, scaling regression).

The TypeScript source is shallowly embedded: JavaScript numbers holding
integer values become `Nat`/`Int`, `Math.random()` draws become an
explicit stream `rand : Nat -> Rat` of values in `[0,1)` consumed at an
explicit cursor, `Math.exp` and floating-point arithmetic in the
regression code become exact real arithmetic, and the generator's
`while` loop (which can spin forever on a degenerate stream) gets an
explicit fuel parameter, with `none` standing for non-termination at
that fuel.
-/

namespace SatWorkbench

/-- A literal: signed integer, magnitude = 1-based variable index, sign = polarity. -/
abbrev Literal := Int

/-- A clause: list of literals. -/
abbrev Clause := List Literal

/-- A formula: list of clauses. -/
abbrev Formula := List Clause

/-! ### The cost function (`getCriticErrors` / `countErrors`) -/

/-- One literal's check in the inner loops of `getCriticErrors` and
`countErrors`: `(lit > 0 && val) || (lit < 0 && !val)`, where
`val = assignment[Math.abs(lit) - 1]` (an out-of-range JavaScript read is
`undefined`, which is falsy, modelled by the `getD _ false` default). -/
def litSat (assignment : List Bool) (lit : Literal) : Bool :=
  (decide (0 < lit) && assignment.getD (lit.natAbs - 1) false) ||
    (decide (lit < 0) && !(assignment.getD (lit.natAbs - 1) false))

/-- A clause is satisfied when some literal check succeeds (the inner
`for`/`break` loop of the two cost functions). -/
def clauseSat (assignment : List Bool) (clause : Clause) : Bool :=
  clause.any (litSat assignment)

/-- `getCriticErrors`: the list of unsatisfied clauses. -/
def getCriticErrors (formula : Formula) (assignment : List Bool) : Formula :=
  formula.filter (fun clause => !clauseSat assignment clause)

/-- `countErrors`: the count of unsatisfied clauses (optimized variant that
avoids building the list). -/
def countErrors (formula : Formula) (assignment : List Bool) : Nat :=
  formula.countP (fun clause => !clauseSat assignment clause)

theorem countErrors_eq_length_getCriticErrors (formula : Formula) (assignment : List Bool) :
    countErrors formula assignment = (getCriticErrors formula assignment).length := by
  simp [countErrors, getCriticErrors, List.countP_eq_length_filter]

/-! ### The exact solver (`solveDPLL`)

The inner closure `run` of `solveDPLL` mutates an outer `steps` counter:
it increments once on entry and bails out with `false` once the counter
exceeds `maxStepsLimit`.  We thread the counter explicitly; the return
value is the pair `(satisfiable, steps)` seen by the caller.  The TS
recursion is bounded in practice by the counter; in Lean we add a fuel
parameter that strictly decreases, and `solveDPLL` supplies fuel
`limit + 2`, which is provably never exhausted before the counter guard
fires (`runDPLL_fuel_irrelevant` below).  The `assignment` map threaded
by the source never influences the returned fields and is omitted. -/

/-- `simplify`: remove clauses containing `literal`, strike `-literal`
from the remaining clauses. -/
def simplify (formula : Formula) (literal : Literal) : Formula :=
  formula.filterMap (fun clause =>
    if literal ∈ clause then none
    else if -literal ∈ clause then some (clause.filter (fun l => l ≠ -literal))
    else some clause)

/-- The unit-propagation scan: the head of the first clause of length 1. -/
def findUnit : Formula → Option Literal
  | [] => none
  | c :: rest => if c.length = 1 then some (c.getD 0 0) else findUnit rest

/-- One `literalCounts.set(lit, (get(lit) || 0) + 1)`: a JavaScript `Map`
keeps insertion order, so an existing key is bumped in place and a new key
is appended at the end. -/
def bumpCount (l : Literal) : List (Literal × Nat) → List (Literal × Nat)
  | [] => [(l, 1)]
  | (k, c) :: rest => if k = l then (k, c + 1) :: rest else (k, c) :: bumpCount l rest

/-- The DLIS occurrence counts, in `Map` iteration (= first-seen) order. -/
def literalCounts (formula : Formula) : List (Literal × Nat) :=
  formula.flatten.foldl (fun acc l => bumpCount l acc) []

/-- The scan for the literal with the strictly largest count
(`bestLit = 1`, `maxCount = -1` initially; ties keep the earlier entry). -/
def pickBest : List (Literal × Nat) → Literal → Int → Literal
  | [], best, _ => best
  | (l, c) :: rest, best, maxCount =>
    if maxCount < (c : Int) then pickBest rest l c else pickBest rest best maxCount

/-- The branching literal chosen by `run`'s splitting step. -/
def bestLit (formula : Formula) : Literal :=
  pickBest (literalCounts formula) 1 (-1)

/-- The recursive `run` closure of `solveDPLL`.  Arguments: the step
ceiling, the fuel (Lean-only, see above), the current value of the
`steps` counter, and the current formula.  Returns the result together
with the final counter value. -/
def runDPLL (limit : Nat) : Nat → Nat → Formula → Bool × Nat
  | 0, steps, _ => (false, steps + 1)
  | fuel + 1, steps, F =>
    if limit < steps + 1 then (false, steps + 1)
    else if F = [] then (true, steps + 1)
    else if F.any List.isEmpty then (false, steps + 1)
    else
      match findUnit F with
      | some lit => runDPLL limit fuel (steps + 1) (simplify F lit)
      | none =>
        if literalCounts F = [] then (false, steps + 1)
        else
          let branch1 := runDPLL limit fuel (steps + 1) (simplify F (bestLit F))
          if branch1.1 then branch1
          else runDPLL limit fuel branch1.2 (simplify F (-bestLit F))

set_option linter.unusedVariables false in
/-- `solveDPLL(formula, n, maxStepsLimit)`.  The `n` parameter is accepted
and ignored, exactly as in the source; the source's default for
`maxStepsLimit` is 20000. -/
def solveDPLL (formula : Formula) (n : Nat) (maxStepsLimit : Nat) : Bool × Nat :=
  runDPLL maxStepsLimit (maxStepsLimit + 2) 0 formula

/-! ### Reference (unbounded) DPLL search

`dpllF`/`dcostF` describe the same recursion tree as `run` without the
step ceiling: `dpllF` is the decision, `dcostF` the number of `run`
invocations the unbounded search performs.  Both take a fuel argument;
any fuel above `litCount F` (the total number of literal occurrences,
which strictly decreases along every recursive call) gives the same
value, so `dpll F`/`dcost F` below are well defined. -/

/-- Total number of literal occurrences in a formula. -/
def litCount (F : Formula) : Nat := (F.map List.length).sum

/-- Fueled unbounded DPLL decision. -/
def dpllF : Nat → Formula → Bool
  | 0, _ => false
  | fuel + 1, F =>
    if F = [] then true
    else if F.any List.isEmpty then false
    else
      match findUnit F with
      | some lit => dpllF fuel (simplify F lit)
      | none =>
        if literalCounts F = [] then false
        else dpllF fuel (simplify F (bestLit F)) || dpllF fuel (simplify F (-bestLit F))

/-- Fueled count of `run` invocations of the unbounded search. -/
def dcostF : Nat → Formula → Nat
  | 0, _ => 1
  | fuel + 1, F =>
    if F = [] then 1
    else if F.any List.isEmpty then 1
    else
      match findUnit F with
      | some lit => 1 + dcostF fuel (simplify F lit)
      | none =>
        if literalCounts F = [] then 1
        else if dpllF fuel (simplify F (bestLit F)) then
          1 + dcostF fuel (simplify F (bestLit F))
        else
          1 + dcostF fuel (simplify F (bestLit F)) + dcostF fuel (simplify F (-bestLit F))

/-! ### Satisfaction semantics over total assignments -/

/-- Truth value of a literal under a total assignment of variables
(1-based indices); the degenerate literal `0` is never true. -/
def evalLit (a : Nat → Bool) (l : Literal) : Bool :=
  if 0 < l then a l.natAbs else if l < 0 then !(a l.natAbs) else false

/-- A total assignment satisfies a formula when every clause holds a true
literal. -/
def satF (a : Nat → Bool) (F : Formula) : Prop :=
  ∀ c ∈ F, ∃ l ∈ c, evalLit a l = true

/-- Override a total assignment so that literal `l` becomes true. -/
def updateA (a : Nat → Bool) (l : Literal) : Nat → Bool :=
  fun v => if v = l.natAbs then decide (0 < l) else a v

/-- Largest variable index mentioned by a formula. -/
def maxVar (F : Formula) : Nat := (F.flatten.map Int.natAbs).foldr max 0

/-- Truncate a total assignment to the `List Bool` shape used by
`countErrors` (entry `i` is the value of variable `i+1`). -/
def assignList (a : Nat → Bool) (V : Nat) : List Bool :=
  (List.range V).map (fun i => a (i + 1))

/-- All literals of the formula denote actual variables (nonzero). -/
def allLitsNonzero (F : Formula) : Prop := ∀ c ∈ F, ∀ l ∈ c, l ≠ 0

/-! ### The instance generator (`generateRandom3SAT`)

`Math.random()` is modelled as a stream `rand : Nat → Rat` of values in
`[0,1)` read at an increasing cursor; `Math.floor(Math.random() * n) + 1`
becomes `⌊rand i * n⌋ + 1`.  The inner `while (clause.length < 3)` loop
can spin forever (e.g. on a constant stream), so it takes a fuel
parameter: `none` means the loop is still spinning after `fuel`
iterations. -/

/-- The random stream obeys the `Math.random()` contract. -/
def randInRange (rand : Nat → ℚ) : Prop := ∀ i, 0 ≤ rand i ∧ rand i < 1

/-- The `while (clause.length < 3)` loop of `generateRandom3SAT`:
draw a variable, skip it if already used, otherwise draw a polarity and
push the literal. -/
def buildClause (n : Nat) (rand : Nat → ℚ) : Nat → Nat → Clause → List Int → Option (Clause × Nat)
  | 0, _, _, _ => none
  | fuel + 1, cursor, clause, usedVars =>
    if clause.length < 3 then
      let v : Int := ⌊rand cursor * n⌋ + 1
      if v ∈ usedVars then
        buildClause n rand fuel (cursor + 1) clause usedVars
      else
        let literal : Literal := if rand (cursor + 1) < 1 / 2 then v else -v
        buildClause n rand fuel (cursor + 2) (clause ++ [literal]) (v :: usedVars)
    else some (clause, cursor)

/-- The outer `for` loop of `generateRandom3SAT`: build `m` clauses in
order, threading the random cursor. -/
def buildFormula (n : Nat) (rand : Nat → ℚ) (fuel : Nat) : Nat → Nat → Option (Formula × Nat)
  | 0, cursor => some ([], cursor)
  | m + 1, cursor =>
    match buildClause n rand fuel cursor [] [] with
    | none => none
    | some (clause, cursor') =>
      match buildFormula n rand fuel m cursor' with
      | none => none
      | some (F, cursor'') => some (clause :: F, cursor'')

/-- `generateRandom3SAT(n, m)` reading draws from `rand` starting at
cursor 0; `none` models the non-terminating executions. -/
def generateRandom3SAT (n m : Nat) (rand : Nat → ℚ) (fuel : Nat) : Option Formula :=
  (buildFormula n rand fuel m 0).map Prod.fst

/-- Shape of a generated clause: exactly 3 literals over pairwise distinct
variables drawn from `[1, n]`. -/
def clauseWellFormed (n : Nat) (c : Clause) : Prop :=
  c.length = 3 ∧ (c.map Int.natAbs).Nodup ∧ ∀ l ∈ c, 1 ≤ l.natAbs ∧ l.natAbs ≤ n

/-- Shape of a generated formula: exactly `m` well-formed clauses. -/
def formulaWellFormed (n m : Nat) (F : Formula) : Prop :=
  F.length = m ∧ ∀ c ∈ F, clauseWellFormed n c

/-- The generator-shape claim exactly as stated: for every `n ≥ 3`, `m`
and every admissible random sequence the generator terminates (returns a
formula at some fuel) and the result is well formed. -/
def generatorAlwaysTerminates : Prop :=
  ∀ n m : Nat, 3 ≤ n → ∀ rand : Nat → ℚ, randInRange rand →
    ∃ fuel F, generateRandom3SAT n m rand fuel = some F ∧ formulaWellFormed n m F

/-! ### The local-search engine (`runSimulatedAnnealingStep`)

`Math.exp` forces exact real arithmetic here, so these definitions are
noncomputable; every claim about them is settled symbolically. -/

/-- `createAgentState(n)`: `n` fresh polarity draws. -/
def createAgentState (n : Nat) (rand : Nat → ℚ) (cursor : Nat) : List Bool :=
  (List.range n).map (fun i => decide (rand (cursor + i) < 1 / 2))

/-- The record returned by `runSimulatedAnnealingStep`. -/
structure AnnealStepResult where
  newAssignment : List Bool
  flippedVar : Int
  accepted : Bool
  delta : Int

/-- One annealing step.  Returns the step record together with the next
random cursor (the source consumes two draws to pick the candidate and a
third one only when the Metropolis comparison is reached). -/
noncomputable def runSimulatedAnnealingStep (formula : Formula) (assignment : List Bool)
    (currentErrors : Formula) (temperature : ℝ) (rand : Nat → ℚ) (cursor : Nat) :
    AnnealStepResult × Nat :=
  if currentErrors.length = 0 then
    (⟨assignment, -1, true, 0⟩, cursor)
  else
    let randomClause := currentErrors.getD (⌊rand cursor * currentErrors.length⌋).toNat []
    let randomLit := randomClause.getD (⌊rand (cursor + 1) * randomClause.length⌋).toNat 0
    let varIdx := randomLit.natAbs - 1
    let candidateAssignment := assignment.set varIdx (!assignment.getD varIdx false)
    let currentCost : Int := currentErrors.length
    let newCost : Int := countErrors formula candidateAssignment
    let delta := newCost - currentCost
    if delta < 0 then
      (⟨candidateAssignment, (varIdx : Int) + 1, true, delta⟩, cursor + 2)
    else
      let probability := Real.exp (-(delta : ℝ) / temperature)
      if ((rand (cursor + 2) : ℝ)) < probability then
        (⟨candidateAssignment, (varIdx : Int) + 1, true, delta⟩, cursor + 3)
      else
        (⟨assignment, (varIdx : Int) + 1, false, delta⟩, cursor + 3)

/-! ### Structural autopsy (`runStructuralAutopsy`) -/

/-- The three-valued autopsy verdict. -/
inductive AutopsyDiagnosis
  | solvable
  | structural
  | algorithmic
deriving DecidableEq

/-- The `AutopsySnapshot` record (the free-text `explanation` string is
presentation-only and not modelled). -/
structure AutopsySnapshot where
  alpha : ℚ
  groundStateEnergy : WithTop Nat
  backboneRigidity : ℚ
  frozenVarsCount : Nat
  totalVars : Nat
  diagnosis : AutopsyDiagnosis

/-- Mutable state of the autopsy annealing loop (`minEnergy` starts at
JavaScript `Infinity`, modelled by `⊤`). -/
structure AutopsyLoopState where
  assignment : List Bool
  flipCounts : List Nat
  minEnergy : WithTop Nat
  temp : ℝ
  cursor : Nat

/-- The `for (s = 0; s < maxSteps; s++)` annealing loop of
`runStructuralAutopsy`; returning early models the `break`. -/
noncomputable def autopsyLoop (formula : Formula) (rand : Nat → ℚ) :
    Nat → AutopsyLoopState → AutopsyLoopState
  | 0, st => st
  | k + 1, st =>
    let errors := getCriticErrors formula st.assignment
    let currentH := errors.length
    let st1 : AutopsyLoopState :=
      { st with minEnergy := if (currentH : WithTop Nat) < st.minEnergy then (currentH : WithTop Nat) else st.minEnergy }
    if currentH = 0 then { st1 with minEnergy := 0 }
    else
      let step := runSimulatedAnnealingStep formula st1.assignment errors st1.temp rand st1.cursor
      let r := step.1
      let st2 : AutopsyLoopState :=
        if r.accepted && decide (r.flippedVar ≠ -1) then
          { st1 with
            assignment := r.newAssignment,
            flipCounts := st1.flipCounts.set (r.flippedVar - 1).toNat
              (st1.flipCounts.getD (r.flippedVar - 1).toNat 0 + 1) }
        else st1
      autopsyLoop formula rand k { st2 with temp := st2.temp * (99 / 100), cursor := step.2 }

/-- `runStructuralAutopsy` after its instance has been generated:
initial random assignment, 2000 annealing steps, then the rigidity
analysis (`frozenThreshold = maxSteps * 0.005`, exact here). -/
noncomputable def runStructuralAutopsyCore (n : Nat) (alpha : ℚ) (formula : Formula)
    (rand : Nat → ℚ) (cursor : Nat) : AutopsySnapshot :=
  let assignment := createAgentState n rand cursor
  let final := autopsyLoop formula rand 2000
    ⟨assignment, List.replicate n 0, ⊤, 2, cursor + n⟩
  let frozenThreshold : ℚ := 2000 * (5 / 1000)
  let frozenCount := (final.flipCounts.filter (fun c : Nat => decide ((c : ℚ) ≤ frozenThreshold))).length
  let backboneRigidity : ℚ := (frozenCount : ℚ) / (n : ℚ)
  let diagnosis :=
    if final.minEnergy = 0 then AutopsyDiagnosis.solvable
    else if 3 / 5 < backboneRigidity then AutopsyDiagnosis.structural
    else AutopsyDiagnosis.algorithmic
  ⟨alpha, final.minEnergy, backboneRigidity, frozenCount, n, diagnosis⟩

/-- `runStructuralAutopsy(n, alpha)`: `m = Math.round(n * alpha)` clauses
are generated, then the annealing autopsy runs; `none` models the
generator failing to terminate at this fuel. -/
noncomputable def runStructuralAutopsy (n : Nat) (alpha : ℚ) (rand : Nat → ℚ) (fuel : Nat) :
    Option AutopsySnapshot :=
  let m := (round ((n : ℚ) * alpha)).toNat
  match buildFormula n rand fuel m 0 with
  | none => none
  | some (formula, cursor) => some (runStructuralAutopsyCore n alpha formula rand cursor)

/-! ### Scaling regression (`getRegressionCoeffs` / `calculateScalingRegression`)

Floating-point arithmetic is modelled by exact real arithmetic;
`Math.log` / `Math.exp` by `Real.log` / `Real.exp`. -/

/-- One `(n, avgSteps)` sample. -/
structure ScalingPoint where
  n : ℝ
  avgSteps : ℝ

/-- The two fitted models of `getRegressionCoeffs`:
`steps ≈ expA·e^(expB·n)` and `steps ≈ polyA·n^polyB`, each by ordinary
least squares on log-transformed data. -/
structure RegressionCoeffs where
  expA : ℝ
  expB : ℝ
  polyA : ℝ
  polyB : ℝ

noncomputable def getRegressionCoeffs (points : List ScalingPoint) : RegressionCoeffs :=
  let N : ℝ := points.length
  let sumX := (points.map (fun p => p.n)).sum
  let sumY := (points.map (fun p => Real.log p.avgSteps)).sum
  let sumXY := (points.map (fun p => p.n * Real.log p.avgSteps)).sum
  let sumXX := (points.map (fun p => p.n * p.n)).sum
  let slopeExp := (N * sumXY - sumX * sumY) / (N * sumXX - sumX * sumX)
  let interceptExp := (sumY - slopeExp * sumX) / N
  let sumXp := (points.map (fun p => Real.log p.n)).sum
  let sumYp := (points.map (fun p => Real.log p.avgSteps)).sum
  let sumXYp := (points.map (fun p => Real.log p.n * Real.log p.avgSteps)).sum
  let sumXXp := (points.map (fun p => Real.log p.n * Real.log p.n)).sum
  let slopePoly := (N * sumXYp - sumXp * sumYp) / (N * sumXXp - sumXp * sumXp)
  let interceptPoly := (sumYp - slopePoly * sumXp) / N
  ⟨Real.exp interceptExp, slopeExp, Real.exp interceptPoly, slopePoly⟩

/-- The `ScalingResult` record. -/
structure ScalingResult where
  points : List ScalingPoint
  exponentialR2 : ℝ
  polynomialR2 : ℝ
  diagnosis : String
  growthFactor : ℝ

noncomputable def calculateScalingRegression (points : List ScalingPoint) : ScalingResult :=
  let coeffs := getRegressionCoeffs points
  let meanY := (points.map (fun p => Real.log p.avgSteps)).sum / points.length
  let ssTotExp := (points.map (fun p => (Real.log p.avgSteps - meanY) ^ 2)).sum
  let ssResExp :=
    (points.map (fun p => (Real.log p.avgSteps - (Real.log coeffs.expA + coeffs.expB * p.n)) ^ 2)).sum
  let r2Exp := 1 - ssResExp / ssTotExp
  let ssTotPoly := (points.map (fun p => (Real.log p.avgSteps - meanY) ^ 2)).sum
  let ssResPoly :=
    (points.map (fun p =>
      (Real.log p.avgSteps - (Real.log coeffs.polyA + coeffs.polyB * Real.log p.n)) ^ 2)).sum
  let r2Poly := 1 - ssResPoly / ssTotPoly
  ⟨points, r2Exp, r2Poly,
    if r2Poly < r2Exp then "EXPONENTIAL (NP-Hard)" else "POLYNOMIAL (P)", coeffs.expB⟩

/-! ### Adversarial scaling probe -/

/-- The three-valued adversarial verdict of `AdversarialResult.diagnosis`. -/
inductive AdversarialDiagnosis
  | robustScaling
  | errorDecay
  | catastrophicCollapse
deriving DecidableEq

/-- The `AdversarialResult` record (§3 / Phase 13 interface). -/
structure AdversarialResult where
  scanPoints : List (ℝ × ℝ)
  slope : ℝ
  deceptivePass : Bool
  diagnosis : AdversarialDiagnosis

/-- Ordinary-least-squares slope of a list of samples. -/
noncomputable def fitSlope (points : List (ℝ × ℝ)) : ℝ :=
  let N : ℝ := points.length
  let sumX := (points.map Prod.fst).sum
  let sumY := (points.map Prod.snd).sum
  let sumXY := (points.map (fun p => p.1 * p.2)).sum
  let sumXX := (points.map (fun p => p.1 * p.1)).sum
  (N * sumXY - sumX * sumY) / (N * sumXX - sumX * sumX)

/-- Slope above which accuracy is considered flat (robust). -/
noncomputable def robustSlopeThreshold : ℝ := -(1 / 1000)

/-- Slope below which the decay is considered catastrophic. -/
noncomputable def collapseSlopeThreshold : ℝ := -(1 / 100)

/-- Modelled from the spec: the implementation of `runAdversarialScaling`
is not among the sources (only its import site, its call site and the
`AdversarialResult` type are), so this definition follows §4.4 of the
spec: the probe re-runs the generalization-style backbone prediction
across an increasing range of `n` — the per-`n` prediction accuracies
are abstracted as the input `scanPoints`, since the underlying sampling
is randomized and unspecified — fits a linear trend of accuracy versus
`n`, and classifies robust / decaying / collapsing from the sign and
magnitude of the fitted slope (the survival flag of the planted
deceptive structure is passed through). -/
noncomputable def runAdversarialScaling (scanPoints : List (ℝ × ℝ)) (deceptivePass : Bool) :
    AdversarialResult :=
  let slope := fitSlope scanPoints
  ⟨scanPoints, slope, deceptivePass,
    if robustSlopeThreshold ≤ slope then .robustScaling
    else if collapseSlopeThreshold ≤ slope then .errorDecay
    else .catastrophicCollapse⟩

/-! ### Structural lemmas about `simplify`, `findUnit` and `bestLit` -/

theorem findUnit_eq_some {F : Formula} {lit : Literal} (h : findUnit F = some lit) :
    ∃ c ∈ F, c = [lit] := by
  induction F with
  | nil => simp [findUnit] at h
  | cons c rest ih =>
    simp only [findUnit] at h
    by_cases hc : c.length = 1
    · rw [if_pos hc] at h
      obtain ⟨a, rfl⟩ := List.length_eq_one.mp hc
      simp only [List.getD, List.get?_cons_zero, Option.getD_some, Option.some.injEq] at h
      exact ⟨[a], by simp, by rw [h]⟩
    · rw [if_neg hc] at h
      obtain ⟨d, hd, hdeq⟩ := ih h
      exact ⟨d, List.mem_cons_of_mem _ hd, hdeq⟩

theorem mem_simplify_of_not_mem {F : Formula} {c : Clause} {l : Literal}
    (hc : c ∈ F) (h1 : l ∉ c) (h2 : -l ∉ c) : c ∈ simplify F l := by
  refine List.mem_filterMap.mpr ⟨c, hc, ?_⟩
  rw [if_neg h1, if_neg h2]

theorem filter_mem_simplify {F : Formula} {c : Clause} {l : Literal}
    (hc : c ∈ F) (h1 : l ∉ c) (h2 : -l ∈ c) :
    c.filter (fun x => x ≠ -l) ∈ simplify F l := by
  refine List.mem_filterMap.mpr ⟨c, hc, ?_⟩
  rw [if_neg h1, if_pos h2]

/-- Every clause of `simplify F l` comes from a clause of `F` by (possibly)
dropping literals. -/
theorem mem_of_mem_simplify {F : Formula} {c' : Clause} {l : Literal}
    (h : c' ∈ simplify F l) : ∃ c ∈ F, ∀ x ∈ c', x ∈ c := by
  obtain ⟨c, hc, heq⟩ := List.mem_filterMap.mp h
  by_cases h1 : l ∈ c
  · rw [if_pos h1] at heq; cases heq
  by_cases h2 : -l ∈ c
  · rw [if_neg h1, if_pos h2] at heq
    obtain rfl := Option.some.injEq .. ▸ heq
    exact ⟨c, hc, fun x hx => (List.mem_filter.mp hx).1⟩
  · rw [if_neg h1, if_neg h2] at heq
    obtain rfl := Option.some.injEq .. ▸ heq
    exact ⟨c, hc, fun x hx => hx⟩

theorem allLitsNonzero_simplify {F : Formula} {l : Literal}
    (h : allLitsNonzero F) : allLitsNonzero (simplify F l) := by
  intro c' hc' x hx
  obtain ⟨c, hc, hsub⟩ := mem_of_mem_simplify hc'
  exact h c hc x (hsub x hx)

theorem pickBest_mem (lst : List (Literal × Nat)) :
    ∀ best maxCount, pickBest lst best maxCount = best ∨
      pickBest lst best maxCount ∈ lst.map Prod.fst := by
  induction lst with
  | nil => intro best maxCount; left; rfl
  | cons p rest ih =>
    intro best maxCount
    obtain ⟨l, c⟩ := p
    simp only [pickBest]
    by_cases hcmp : maxCount < (c : Int)
    · rw [if_pos hcmp]
      rcases ih l c with h | h
      · right; rw [h]; simp
      · right; simp [h]
    · rw [if_neg hcmp]
      rcases ih best maxCount with h | h
      · left; exact h
      · right; simp [h]

theorem keys_bumpCount {l : Literal} :
    ∀ (acc : List (Literal × Nat)) x, x ∈ (bumpCount l acc).map Prod.fst →
      x = l ∨ x ∈ acc.map Prod.fst := by
  intro acc
  induction acc with
  | nil => intro x hx; simp [bumpCount] at hx; exact Or.inl hx
  | cons p rest ih =>
    intro x hx
    obtain ⟨k, c⟩ := p
    simp only [bumpCount] at hx
    by_cases hkl : k = l
    · rw [if_pos hkl] at hx
      simp only [List.map_cons, List.mem_cons] at hx
      rcases hx with h | h
      · right; simp [h]
      · right; simp [h]
    · rw [if_neg hkl] at hx
      simp only [List.map_cons, List.mem_cons] at hx
      rcases hx with h | h
      · right; simp [h]
      · rcases ih x h with h' | h'
        · left; exact h'
        · right; simp [h']

theorem keys_foldl_bumpCount :
    ∀ (xs : List Literal) (acc : List (Literal × Nat)) x,
      x ∈ (xs.foldl (fun acc l => bumpCount l acc) acc).map Prod.fst →
      x ∈ xs ∨ x ∈ acc.map Prod.fst := by
  intro xs
  induction xs with
  | nil => intro acc x hx; right; simpa using hx
  | cons y ys ih =>
    intro acc x hx
    simp only [List.foldl_cons] at hx
    rcases ih (bumpCount y acc) x hx with h | h
    · left; exact List.mem_cons_of_mem _ h
    · rcases keys_bumpCount acc x h with h' | h'
      · left; simp [h']
      · right; exact h'

theorem bestLit_mem_flatten {F : Formula} (h : literalCounts F ≠ []) :
    bestLit F ∈ F.flatten := by
  unfold bestLit
  rcases hlst : literalCounts F with _ | ⟨⟨l, c⟩, rest⟩
  · exact absurd hlst h
  have hstep : pickBest ((l, c) :: rest) 1 (-1) = pickBest rest l c := by
    simp only [pickBest, if_pos (by omega : (-1 : Int) < (c : Int))]
  rw [hstep]
  have hmem : pickBest rest l c ∈ ((l, c) :: rest).map Prod.fst := by
    rcases pickBest_mem rest l c with h' | h'
    · rw [h']; simp
    · simp [h']
  rw [← hlst] at hmem
  have := keys_foldl_bumpCount F.flatten [] (pickBest rest l c) (by simpa [literalCounts] using hmem)
  simpa using this

/-! ### The termination measure `litCount` -/

theorem litCount_cons (c : Clause) (rest : Formula) :
    litCount (c :: rest) = c.length + litCount rest := by
  simp [litCount]

theorem length_filter_lt_of_mem {c : Clause} {p : Literal → Bool} {x : Literal}
    (hx : x ∈ c) (hpx : p x = false) : (c.filter p).length < c.length := by
  induction c with
  | nil => cases hx
  | cons y ys ih =>
    rcases List.mem_cons.mp hx with rfl | hmem
    · simp only [List.filter_cons, hpx]
      exact Nat.lt_succ_of_le (List.length_filter_le p ys)
    · simp only [List.filter_cons]
      cases hpy : p y with
      | true => simpa using ih hmem
      | false => exact Nat.lt_succ_of_lt (ih hmem)

theorem simplify_cons (c : Clause) (rest : Formula) (l : Literal) :
    simplify (c :: rest) l =
      if l ∈ c then simplify rest l
      else if -l ∈ c then c.filter (fun x => x ≠ -l) :: simplify rest l
      else c :: simplify rest l := by
  simp only [simplify, List.filterMap_cons]
  by_cases h1 : l ∈ c
  · rw [if_pos h1, if_pos h1]
  by_cases h2 : -l ∈ c
  · rw [if_neg h1, if_pos h2, if_neg h1, if_pos h2]
  · rw [if_neg h1, if_neg h2, if_neg h1, if_neg h2]

theorem litCount_simplify_le (F : Formula) (l : Literal) :
    litCount (simplify F l) ≤ litCount F := by
  induction F with
  | nil => simp [simplify, litCount]
  | cons c rest ih =>
    rw [simplify_cons, litCount_cons]
    by_cases h1 : l ∈ c
    · rw [if_pos h1]; omega
    by_cases h2 : -l ∈ c
    · rw [if_neg h1, if_pos h2, litCount_cons]
      have := List.length_filter_le (fun x => decide (x ≠ -l)) c
      omega
    · rw [if_neg h1, if_neg h2, litCount_cons]; omega

theorem litCount_simplify_lt {F : Formula} {c : Clause} {l : Literal}
    (hc : c ∈ F) (hl : l ∈ c ∨ -l ∈ c) : litCount (simplify F l) < litCount F := by
  induction F with
  | nil => cases hc
  | cons d rest ih =>
    rw [simplify_cons, litCount_cons]
    rcases List.mem_cons.mp hc with rfl | hmem
    · -- the witnessing clause is the head
      by_cases h1 : l ∈ c
      · rw [if_pos h1]
        have hlen : 0 < c.length := List.length_pos.mpr (List.ne_nil_of_mem h1)
        have := litCount_simplify_le rest l
        omega
      · have h2 : -l ∈ c := by tauto
        rw [if_neg h1, if_pos h2, litCount_cons]
        have hflt : (c.filter (fun x => decide (x ≠ -l))).length < c.length :=
          length_filter_lt_of_mem h2 (by simp)
        have := litCount_simplify_le rest l
        omega
    · -- the witnessing clause is in the tail
      by_cases h1 : l ∈ d
      · rw [if_pos h1]
        have hlen : 0 < d.length := List.length_pos.mpr (List.ne_nil_of_mem h1)
        have := ih hmem
        omega
      by_cases h2 : -l ∈ d
      · rw [if_neg h1, if_pos h2, litCount_cons]
        have hle : (d.filter (fun x => decide (x ≠ -l))).length ≤ d.length :=
          List.length_filter_le _ d
        have := ih hmem
        omega
      · rw [if_neg h1, if_neg h2, litCount_cons]
        have := ih hmem
        omega

/-- The unit literal found by `findUnit` occurs in the formula. -/
theorem litCount_simplify_lt_of_findUnit {F : Formula} {lit : Literal}
    (h : findUnit F = some lit) : litCount (simplify F lit) < litCount F := by
  obtain ⟨c, hc, rfl⟩ := findUnit_eq_some h
  exact litCount_simplify_lt hc (Or.inl (by simp))

theorem litCount_simplify_lt_of_bestLit {F : Formula} (h : literalCounts F ≠ []) :
    litCount (simplify F (bestLit F)) < litCount F := by
  obtain ⟨c, hc, hmem⟩ := List.mem_flatten.mp (bestLit_mem_flatten h)
  exact litCount_simplify_lt hc (Or.inl hmem)

theorem litCount_simplify_lt_of_bestLit_neg {F : Formula} (h : literalCounts F ≠ []) :
    litCount (simplify F (-bestLit F)) < litCount F := by
  obtain ⟨c, hc, hmem⟩ := List.mem_flatten.mp (bestLit_mem_flatten h)
  exact litCount_simplify_lt hc (Or.inr (by simpa using hmem))

/-! ### Step-counter lemmas for `runDPLL` -/

/-- Once the counter is beyond the ceiling, every call reports failure
immediately, returning the incremented counter. -/
theorem runDPLL_of_limit_lt (limit fuel steps : Nat) (F : Formula)
    (h : limit < steps + 1) : runDPLL limit fuel steps F = (false, steps + 1) := by
  cases fuel with
  | zero => rfl
  | succ fuel => simp [runDPLL, if_pos h]

/-- Every invocation of `run` increments the counter at least once. -/
theorem runDPLL_steps_lt (limit : Nat) :
    ∀ fuel steps F, steps < (runDPLL limit fuel steps F).2 := by
  intro fuel
  induction fuel with
  | zero => intro steps F; simp [runDPLL]
  | succ fuel ih =>
    intro steps F
    by_cases hg : limit < steps + 1
    · simp [runDPLL, if_pos hg]
    by_cases hnil : F = []
    · simp [runDPLL, if_neg hg, hnil]
    cases hemp : F.any List.isEmpty with
    | true => simp [runDPLL, if_neg hg, hnil, hemp]
    | false =>
      cases hunit : findUnit F with
      | some lit =>
        simp only [runDPLL, if_neg hg, if_neg hnil, hemp, Bool.false_eq_true, if_false, hunit]
        exact Nat.lt_trans (Nat.lt_succ_self steps) (ih _ _)
      | none =>
        by_cases hcnt : literalCounts F = []
        · simp [runDPLL, if_neg hg, hnil, hemp, hunit, hcnt]
        rcases h1 : runDPLL limit fuel (steps + 1) (simplify F (bestLit F)) with ⟨b1, t1⟩
        have ht1 : steps + 1 < t1 := by
          have := ih (steps + 1) (simplify F (bestLit F)); rwa [h1] at this
        simp only [runDPLL, if_neg hg, if_neg hnil, hemp, Bool.false_eq_true, if_false, hunit,
          if_neg hcnt, h1]
        cases b1 with
        | true => simpa using Nat.lt_of_succ_lt ht1
        | false =>
          have := ih t1 (simplify F (-bestLit F))
          simp only [Bool.false_eq_true, if_false]
          omega

/-- If the search succeeds, the final counter is within the ceiling. -/
theorem runDPLL_true_steps_le (limit : Nat) :
    ∀ fuel steps F s1, runDPLL limit fuel steps F = (true, s1) → s1 ≤ limit := by
  intro fuel
  induction fuel with
  | zero => intro steps F s1 h; simp [runDPLL] at h
  | succ fuel ih =>
    intro steps F s1 h
    by_cases hg : limit < steps + 1
    · rw [runDPLL_of_limit_lt limit _ steps F hg] at h
      simp at h
    by_cases hnil : F = []
    · simp only [runDPLL, if_neg hg, if_pos hnil, Prod.mk.injEq] at h
      omega
    cases hemp : F.any List.isEmpty with
    | true => simp [runDPLL, if_neg hg, hnil, hemp] at h
    | false =>
      cases hunit : findUnit F with
      | some lit =>
        simp only [runDPLL, if_neg hg, if_neg hnil, hemp, Bool.false_eq_true, if_false,
          hunit] at h
        exact ih _ _ _ h
      | none =>
        by_cases hcnt : literalCounts F = []
        · simp [runDPLL, if_neg hg, hnil, hemp, hunit, hcnt] at h
        rcases h1 : runDPLL limit fuel (steps + 1) (simplify F (bestLit F)) with ⟨b1, t1⟩
        simp only [runDPLL, if_neg hg, if_neg hnil, hemp, Bool.false_eq_true, if_false, hunit,
          if_neg hcnt, h1] at h
        cases b1 with
        | true =>
          simp only [if_true, Prod.mk.injEq] at h
          obtain ⟨-, rfl⟩ := h
          exact ih _ _ _ h1
        | false =>
          simp only [Bool.false_eq_true, if_false] at h
          exact ih _ _ _ h

/-- Budget monotonicity of the raw search: a run that ends with its counter
within the smaller ceiling never hit the guard, so the identical run happens
under any larger ceiling (and under any adequate fuel). -/
theorem runDPLL_limit_mono (limit1 limit2 : Nat) (h12 : limit1 ≤ limit2) :
    ∀ fuel1 fuel2 steps F b s1,
      limit1 + 2 ≤ fuel1 + steps → limit2 + 2 ≤ fuel2 + steps →
      runDPLL limit1 fuel1 steps F = (b, s1) → s1 ≤ limit1 →
      runDPLL limit2 fuel2 steps F = (b, s1) := by
  intro fuel1
  induction fuel1 with
  | zero =>
    intro fuel2 steps F b s1 had1 _ h hs1
    simp only [runDPLL, Prod.mk.injEq] at h
    omega
  | succ fuel1 ih =>
    intro fuel2 steps F b s1 had1 had2 h hs1
    by_cases hg : limit1 < steps + 1
    · rw [runDPLL_of_limit_lt limit1 _ steps F hg] at h
      obtain ⟨-, rfl⟩ := Prod.mk.injEq .. ▸ h
      omega
    have hg2 : ¬ limit2 < steps + 1 := by omega
    cases fuel2 with
    | zero => omega
    | succ fuel2 =>
      by_cases hnil : F = []
      · simp only [runDPLL, if_neg hg, if_pos hnil] at h
        simp only [runDPLL, if_neg hg2, if_pos hnil]
        exact h
      cases hemp : F.any List.isEmpty with
      | true =>
        simp only [runDPLL, if_neg hg, if_neg hnil, hemp, if_true] at h
        simp only [runDPLL, if_neg hg2, if_neg hnil, hemp, if_true]
        exact h
      | false =>
        cases hunit : findUnit F with
        | some lit =>
          simp only [runDPLL, if_neg hg, if_neg hnil, hemp, Bool.false_eq_true, if_false,
            hunit] at h
          simp only [runDPLL, if_neg hg2, if_neg hnil, hemp, Bool.false_eq_true, if_false, hunit]
          exact ih fuel2 _ _ _ _ (by omega) (by omega) h hs1
        | none =>
          by_cases hcnt : literalCounts F = []
          · simp only [runDPLL, if_neg hg, if_neg hnil, hemp, Bool.false_eq_true, if_false,
              hunit, if_pos hcnt] at h
            simp only [runDPLL, if_neg hg2, if_neg hnil, hemp, Bool.false_eq_true, if_false,
              hunit, if_pos hcnt]
            exact h
          rcases h1 : runDPLL limit1 fuel1 (steps + 1) (simplify F (bestLit F)) with ⟨b1, t1⟩
          simp only [runDPLL, if_neg hg, if_neg hnil, hemp, Bool.false_eq_true, if_false, hunit,
            if_neg hcnt, h1] at h
          simp only [runDPLL, if_neg hg2, if_neg hnil, hemp, Bool.false_eq_true, if_false, hunit,
            if_neg hcnt]
          cases b1 with
          | true =>
            simp only [Prod.fst, if_true, Prod.mk.injEq] at h
            obtain ⟨rfl, rfl⟩ := h
            have h1' := ih fuel2 _ _ _ _ (by omega) (by omega) h1 hs1
            rw [h1']
            simp
          | false =>
            simp only [Prod.fst, Bool.false_eq_true, if_false, Prod.snd] at h
            have hlt : steps + 1 < t1 := by
              have := runDPLL_steps_lt limit1 fuel1 (steps + 1) (simplify F (bestLit F))
              rwa [h1] at this
            have hlt2 : t1 < s1 := by
              have := runDPLL_steps_lt limit1 fuel1 t1 (simplify F (-bestLit F))
              rwa [h] at this
            have h1' := ih fuel2 _ _ _ _ (by omega) (by omega) h1 (by omega)
            rw [h1']
            simp only [Prod.fst, Bool.false_eq_true, if_false, Prod.snd]
            exact ih fuel2 _ _ _ _ (by omega) (by omega) h hs1

/-! ### Semantics lemmas and soundness of the search -/

theorem evalLit_ne_zero {a : Nat → Bool} {l : Int} (h : evalLit a l = true) : l ≠ 0 := by
  intro rfl0
  simp [evalLit, rfl0] at h

theorem evalLit_updateA_self {a : Nat → Bool} {l : Int} (hl : l ≠ 0) :
    evalLit (updateA a l) l = true := by
  rcases lt_trichotomy l 0 with hneg | rfl0 | hpos
  · simp [evalLit, updateA, hneg, not_lt_of_gt hneg, show ¬ (0:Int) < l by omega]
  · exact absurd rfl0 hl
  · simp [evalLit, updateA, hpos]

theorem evalLit_updateA_ne {a : Nat → Bool} {l x : Int}
    (h : x.natAbs ≠ l.natAbs) : evalLit (updateA a l) x = evalLit a x := by
  simp [evalLit, updateA, if_neg h]

theorem evalLit_neg {a : Nat → Bool} {l : Int} (hl : l ≠ 0) :
    evalLit a (-l) = !evalLit a l := by
  rcases lt_trichotomy l 0 with hneg | rfl0 | hpos
  · simp [evalLit, hneg, show (0:Int) < -l by omega, show ¬ (0:Int) < l by omega,
      Int.natAbs_neg]
  · exact absurd rfl0 hl
  · simp [evalLit, hpos, show ¬ (0:Int) < -l by omega, show -l < 0 by omega,
      show ¬ l < 0 by omega, Int.natAbs_neg]

theorem satF_simplify {a : Nat → Bool} {F : Formula} {l : Int}
    (hl : evalLit a l = true) (h : satF a F) : satF a (simplify F l) := by
  intro c' hc'
  obtain ⟨c, hc, heq⟩ := List.mem_filterMap.mp hc'
  by_cases h1 : l ∈ c
  · rw [if_pos h1] at heq; cases heq
  by_cases h2 : -l ∈ c
  · rw [if_neg h1, if_pos h2] at heq
    obtain rfl := Option.some.injEq .. ▸ heq
    obtain ⟨l', hl'mem, hl'⟩ := h c hc
    have hne : l' ≠ -l := by
      intro heq
      subst heq
      rw [evalLit_neg (evalLit_ne_zero hl), hl] at hl'
      simp at hl'
    exact ⟨l', List.mem_filter.mpr ⟨hl'mem, by simpa using hne⟩, hl'⟩
  · rw [if_neg h1, if_neg h2] at heq
    obtain rfl := Option.some.injEq .. ▸ heq
    exact h c hc

theorem satF_simplify_zero {a : Nat → Bool} {F : Formula}
    (h : satF a F) : satF a (simplify F 0) := by
  intro c' hc'
  obtain ⟨c, hc, heq⟩ := List.mem_filterMap.mp hc'
  by_cases h1 : (0 : Int) ∈ c
  · rw [if_pos h1] at heq; cases heq
  · rw [if_neg h1, if_neg (by simpa using h1)] at heq
    obtain rfl := Option.some.injEq .. ▸ heq
    exact h c hc

theorem satF_update_of_satF_simplify {a : Nat → Bool} {F : Formula} {l : Int}
    (hl : l ≠ 0) (h : satF a (simplify F l)) : satF (updateA a l) F := by
  intro c hc
  by_cases h1 : l ∈ c
  · exact ⟨l, h1, evalLit_updateA_self hl⟩
  by_cases h2 : -l ∈ c
  · obtain ⟨l', hl'mem, hl'⟩ := h _ (filter_mem_simplify hc h1 h2)
    obtain ⟨hl'c, hl'ne⟩ := List.mem_filter.mp hl'mem
    have hne2 : l' ≠ -l := by simpa using hl'ne
    have hne1 : l' ≠ l := fun h' => h1 (h' ▸ hl'c)
    have habs : l'.natAbs ≠ l.natAbs := by
      rw [Ne, Int.natAbs_eq_natAbs_iff]
      push_neg
      exact ⟨hne1, hne2⟩
    exact ⟨l', hl'c, (evalLit_updateA_ne habs).trans hl'⟩
  · obtain ⟨l', hl'c, hl'⟩ := h _ (mem_simplify_of_not_mem hc h1 h2)
    have hne1 : l' ≠ l := fun h' => h1 (h' ▸ hl'c)
    have hne2 : l' ≠ -l := fun h' => h2 (h' ▸ hl'c)
    have habs : l'.natAbs ≠ l.natAbs := by
      rw [Ne, Int.natAbs_eq_natAbs_iff]
      push_neg
      exact ⟨hne1, hne2⟩
    exact ⟨l', hl'c, (evalLit_updateA_ne habs).trans hl'⟩

/-- A successful bounded search certifies a satisfying total assignment
(for formulas whose literals all denote variables). -/
theorem runDPLL_sound (limit : Nat) :
    ∀ fuel steps F s1, allLitsNonzero F →
      runDPLL limit fuel steps F = (true, s1) → ∃ a : Nat → Bool, satF a F := by
  intro fuel
  induction fuel with
  | zero => intro steps F s1 _ h; simp [runDPLL] at h
  | succ fuel ih =>
    intro steps F s1 hnz h
    by_cases hg : limit < steps + 1
    · rw [runDPLL_of_limit_lt limit _ steps F hg] at h
      simp at h
    by_cases hnil : F = []
    · exact ⟨fun _ => false, by subst hnil; intro c hc; cases hc⟩
    cases hemp : F.any List.isEmpty with
    | true => simp [runDPLL, if_neg hg, hnil, hemp] at h
    | false =>
      cases hunit : findUnit F with
      | some lit =>
        simp only [runDPLL, if_neg hg, if_neg hnil, hemp, Bool.false_eq_true, if_false,
          hunit] at h
        have hlitnz : lit ≠ 0 := by
          obtain ⟨c, hc, hceq⟩ := findUnit_eq_some hunit
          exact hnz c hc lit (by rw [hceq]; simp)
        obtain ⟨a, ha⟩ := ih _ _ _ (allLitsNonzero_simplify hnz) h
        exact ⟨updateA a lit, satF_update_of_satF_simplify hlitnz ha⟩
      | none =>
        by_cases hcnt : literalCounts F = []
        · simp [runDPLL, if_neg hg, hnil, hemp, hunit, hcnt] at h
        have hbestnz : bestLit F ≠ 0 := by
          obtain ⟨c, hc, hmem⟩ := List.mem_flatten.mp (bestLit_mem_flatten hcnt)
          exact hnz c hc _ hmem
        rcases h1 : runDPLL limit fuel (steps + 1) (simplify F (bestLit F)) with ⟨b1, t1⟩
        simp only [runDPLL, if_neg hg, if_neg hnil, hemp, Bool.false_eq_true, if_false, hunit,
          if_neg hcnt, h1] at h
        cases b1 with
        | true =>
          obtain ⟨a, ha⟩ := ih _ _ _ (allLitsNonzero_simplify hnz) h1
          exact ⟨updateA a (bestLit F), satF_update_of_satF_simplify hbestnz ha⟩
        | false =>
          simp only [Bool.false_eq_true, if_false] at h
          obtain ⟨a, ha⟩ := ih _ _ _ (allLitsNonzero_simplify hnz) h
          exact ⟨updateA a (-bestLit F),
            satF_update_of_satF_simplify (by simpa using hbestnz) ha⟩

theorem le_foldr_max : ∀ (xs : List Nat) (x : Nat), x ∈ xs → x ≤ xs.foldr max 0 := by
  intro xs
  induction xs with
  | nil => intro x hx; cases hx
  | cons y ys ih =>
    intro x hx
    rcases List.mem_cons.mp hx with rfl | hmem
    · exact le_max_left _ _
    · exact le_trans (ih x hmem) (le_max_right _ _)

theorem litSat_assignList {a : Nat → Bool} {V : Nat} {l : Int}
    (h1 : 1 ≤ l.natAbs) (h2 : l.natAbs ≤ V) :
    litSat (assignList a V) l = evalLit a l := by
  have hidx : l.natAbs - 1 < V := by omega
  have hget : (assignList a V).getD (l.natAbs - 1) false = a l.natAbs := by
    rw [assignList, List.getD_eq_getElem _ _ (by simpa using hidx)]
    simp only [List.getElem_map, List.getElem_range]
    congr 1
    omega
  simp only [litSat, evalLit, hget]
  rcases lt_trichotomy l 0 with hneg | rfl0 | hpos
  · simp [hneg, show ¬ (0:Int) < l by omega]
  · simp [rfl0] at h1
  · simp [hpos, show ¬ l < 0 by omega]

theorem countErrors_eq_zero_iff {F : Formula} {lst : List Bool} :
    countErrors F lst = 0 ↔ ∀ c ∈ F, clauseSat lst c = true := by
  rw [countErrors, List.countP_eq_zero]
  constructor
  · intro h c hc
    have := h c hc
    simpa using this
  · intro h c hc
    simp [h c hc]

/-- Soundness of the exact solver for formulas with nonzero literals:
`satisfiable = true` certifies a satisfying boolean vector. -/
theorem solveDPLL_sound {F : Formula} {n L s : Nat} (hnz : allLitsNonzero F)
    (h : solveDPLL F n L = (true, s)) : ∃ a : List Bool, countErrors F a = 0 := by
  obtain ⟨af, hsat⟩ := runDPLL_sound L (L + 2) 0 F s hnz h
  refine ⟨assignList af (maxVar F), countErrors_eq_zero_iff.mpr ?_⟩
  intro c hc
  obtain ⟨l, hlmem, hl⟩ := hsat c hc
  have hlnz : l ≠ 0 := evalLit_ne_zero hl
  have h1 : 1 ≤ l.natAbs := Int.natAbs_pos.mpr hlnz
  have h2 : l.natAbs ≤ maxVar F := by
    apply le_foldr_max
    exact List.mem_map_of_mem Int.natAbs (List.mem_flatten.mpr ⟨c, hc, hlmem⟩)
  refine List.any_eq_true.mpr ⟨l, hlmem, ?_⟩
  rw [litSat_assignList h1 h2, hl]

/-! ### Completeness of the search under a sufficient budget -/

theorem evalLit_getD (a : List Bool) (l : Int) :
    evalLit (fun v => a.getD (v - 1) false) l = litSat a l := by
  rcases lt_trichotomy l 0 with hneg | rfl0 | hpos
  · simp [evalLit, litSat, hneg, show ¬ (0:Int) < l by omega]
  · subst rfl0; simp [evalLit, litSat]
  · simp [evalLit, litSat, hpos, show ¬ l < 0 by omega]

theorem satF_of_countErrors_zero {F : Formula} {a : List Bool}
    (h : countErrors F a = 0) : satF (fun v => a.getD (v - 1) false) F := by
  intro c hc
  have hcs : clauseSat a c = true := countErrors_eq_zero_iff.mp h c hc
  obtain ⟨l, hlmem, hl⟩ := List.any_eq_true.mp hcs
  exact ⟨l, hlmem, by rw [evalLit_getD, hl]⟩

theorem bumpCount_ne_nil (l : Literal) (acc : List (Literal × Nat)) :
    bumpCount l acc ≠ [] := by
  cases acc with
  | nil => simp [bumpCount]
  | cons p rest =>
    obtain ⟨k, c⟩ := p
    simp only [bumpCount]
    by_cases hkl : k = l
    · rw [if_pos hkl]; simp
    · rw [if_neg hkl]; simp

theorem foldl_bumpCount_ne_nil :
    ∀ (xs : List Literal) (acc : List (Literal × Nat)), acc ≠ [] →
      xs.foldl (fun acc l => bumpCount l acc) acc ≠ [] := by
  intro xs
  induction xs with
  | nil => intro acc h; simpa using h
  | cons y ys ih =>
    intro acc _
    simp only [List.foldl_cons]
    exact ih (bumpCount y acc) (bumpCount_ne_nil y acc)

theorem literalCounts_ne_nil {F : Formula} (hnil : F ≠ [])
    (hemp : F.any List.isEmpty = false) : literalCounts F ≠ [] := by
  have hflat : F.flatten ≠ [] := by
    rcases F with _ | ⟨c, rest⟩
    · exact absurd rfl hnil
    · have hc : c ≠ [] := by
        intro rfl0
        simp [rfl0] at hemp
      simp only [List.flatten_cons]
      intro habs
      exact hc (List.append_eq_nil.mp habs).1
  rcases hx : F.flatten with _ | ⟨x, xs⟩
  · exact absurd hx hflat
  unfold literalCounts
  rw [hx]
  simp only [List.foldl_cons]
  exact foldl_bumpCount_ne_nil xs (bumpCount x []) (bumpCount_ne_nil x [])

/-- The unbounded search is complete: any satisfiable formula is decided
`true` (at adequate fuel). -/
theorem dpllF_complete :
    ∀ fuel F, litCount F < fuel → (∃ a : Nat → Bool, satF a F) → dpllF fuel F = true := by
  intro fuel
  induction fuel with
  | zero => intro F h _; omega
  | succ fuel ih =>
    intro F hfuel hsat
    obtain ⟨a, ha⟩ := hsat
    by_cases hnil : F = []
    · simp [dpllF, hnil]
    cases hemp : F.any List.isEmpty with
    | true =>
      obtain ⟨c, hc, hcemp⟩ := List.any_eq_true.mp hemp
      obtain ⟨l, hlmem, -⟩ := ha c hc
      rw [List.isEmpty_iff.mp hcemp] at hlmem
      cases hlmem
    | false =>
      cases hunit : findUnit F with
      | some lit =>
        simp only [dpllF, if_neg hnil, hemp, Bool.false_eq_true, if_false, hunit]
        have hlit : evalLit a lit = true := by
          obtain ⟨c, hc, hceq⟩ := findUnit_eq_some hunit
          obtain ⟨l, hlmem, hl⟩ := ha c hc
          rw [hceq] at hlmem
          obtain rfl := List.mem_singleton.mp hlmem
          exact hl
        exact ih _ (by have := litCount_simplify_lt_of_findUnit hunit; omega)
          ⟨a, satF_simplify hlit ha⟩
      | none =>
        have hcnt : literalCounts F ≠ [] := literalCounts_ne_nil hnil hemp
        simp only [dpllF, if_neg hnil, hemp, Bool.false_eq_true, if_false, hunit, if_neg hcnt]
        by_cases hb0 : bestLit F = 0
        · have hrec : dpllF fuel (simplify F (bestLit F)) = true := by
            rw [hb0]
            exact ih _ (by have := litCount_simplify_lt_of_bestLit hcnt; rw [hb0] at this; omega)
              ⟨a, satF_simplify_zero ha⟩
          simp [hrec]
        cases hev : evalLit a (bestLit F) with
        | true =>
          have hrec : dpllF fuel (simplify F (bestLit F)) = true :=
            ih _ (by have := litCount_simplify_lt_of_bestLit hcnt; omega)
              ⟨a, satF_simplify hev ha⟩
          simp [hrec]
        | false =>
          have hevneg : evalLit a (-bestLit F) = true := by
            rw [evalLit_neg hb0, hev]
            rfl
          have hrec : dpllF fuel (simplify F (-bestLit F)) = true :=
            ih _ (by have := litCount_simplify_lt_of_bestLit_neg hcnt; omega)
              ⟨a, satF_simplify hevneg ha⟩
          simp [hrec]

theorem dcostF_pos : ∀ fuel F, 1 ≤ dcostF fuel F := by
  intro fuel F
  cases fuel with
  | zero => simp [dcostF]
  | succ fuel =>
    simp only [dcostF]
    by_cases hnil : F = []
    · simp [hnil]
    cases hemp : F.any List.isEmpty with
    | true => simp [hnil, hemp]
    | false =>
      cases hunit : findUnit F with
      | some lit => simp [hnil, hemp, hunit]
      | none =>
        by_cases hcnt : literalCounts F = []
        · simp [hnil, hemp, hunit, hcnt]
        · simp only [if_neg hnil, hemp, Bool.false_eq_true, if_false, hunit, if_neg hcnt]
          split <;> omega

/-- At a budget of at least the unbounded search's cost, the bounded
search runs identically to the unbounded one. -/
theorem runDPLL_eq_dpllF (limit : Nat) :
    ∀ fuel fuelR steps F,
      litCount F < fuel → limit + 2 ≤ fuelR + steps → steps + dcostF fuel F ≤ limit →
      runDPLL limit fuelR steps F = (dpllF fuel F, steps + dcostF fuel F) := by
  intro fuel
  induction fuel with
  | zero => intro fuelR steps F h _ _; omega
  | succ fuel ih =>
    intro fuelR steps F hfuel had hbudget
    have hd1 := dcostF_pos (fuel + 1) F
    cases fuelR with
    | zero => omega
    | succ fuelR =>
      have hg : ¬ limit < steps + 1 := by omega
      by_cases hnil : F = []
      · simp [runDPLL, dpllF, dcostF, hnil, if_neg hg]
      cases hemp : F.any List.isEmpty with
      | true =>
        simp [runDPLL, dpllF, dcostF, if_neg hg, hnil, hemp]
      | false =>
        cases hunit : findUnit F with
        | some lit =>
          have hlt := litCount_simplify_lt_of_findUnit hunit
          have hrec := ih fuelR (steps + 1) (simplify F lit) (by omega)
            (by omega)
            (by simp only [dcostF, if_neg hnil, hemp, Bool.false_eq_true, if_false,
              hunit] at hbudget; omega)
          simp only [runDPLL, dpllF, dcostF, if_neg hg, if_neg hnil, hemp, Bool.false_eq_true,
            if_false, hunit, hrec]
          simp only [Prod.mk.injEq]
          exact ⟨trivial, by omega⟩
        | none =>
          by_cases hcnt : literalCounts F = []
          · simp [runDPLL, dpllF, dcostF, if_neg hg, hnil, hemp, hunit, hcnt]
          have hlt1 := litCount_simplify_lt_of_bestLit hcnt
          have hlt2 := litCount_simplify_lt_of_bestLit_neg hcnt
          have hbudget' : steps + dcostF (fuel + 1) F ≤ limit := hbudget
          simp only [dcostF, if_neg hnil, hemp, Bool.false_eq_true, if_false, hunit,
            if_neg hcnt] at hbudget'
          cases hb1 : dpllF fuel (simplify F (bestLit F)) with
          | true =>
            rw [hb1] at hbudget'
            simp only [if_true] at hbudget'
            have hrec1 := ih fuelR (steps + 1) (simplify F (bestLit F)) (by omega) (by omega)
              (by omega)
            rw [hb1] at hrec1
            have hgoalL : runDPLL limit (fuelR + 1) steps F =
                (true, steps + 1 + dcostF fuel (simplify F (bestLit F))) := by
              simp only [runDPLL, if_neg hg, if_neg hnil, hemp, Bool.false_eq_true, if_false,
                hunit, if_neg hcnt, hrec1]
              simp
            have hgoalR : dpllF (fuel + 1) F = true := by
              simp [dpllF, hnil, hemp, hunit, hcnt, hb1]
            have hcost : dcostF (fuel + 1) F = 1 + dcostF fuel (simplify F (bestLit F)) := by
              simp [dcostF, hnil, hemp, hunit, hcnt, hb1]
            rw [hgoalL, hgoalR, hcost]
            simp only [Prod.mk.injEq]
            exact ⟨trivial, by omega⟩
          | false =>
            rw [hb1] at hbudget'
            simp only [Bool.false_eq_true, if_false] at hbudget'
            have hrec1 := ih fuelR (steps + 1) (simplify F (bestLit F)) (by omega) (by omega)
              (by omega)
            rw [hb1] at hrec1
            have hrec2 := ih fuelR (steps + 1 + dcostF fuel (simplify F (bestLit F)))
              (simplify F (-bestLit F)) (by omega) (by omega) (by omega)
            have hgoalL : runDPLL limit (fuelR + 1) steps F =
                (dpllF fuel (simplify F (-bestLit F)),
                  steps + 1 + dcostF fuel (simplify F (bestLit F)) +
                    dcostF fuel (simplify F (-bestLit F))) := by
              simp only [runDPLL, if_neg hg, if_neg hnil, hemp, Bool.false_eq_true, if_false,
                hunit, if_neg hcnt, hrec1]
              simp [hrec2]
            have hgoalR : dpllF (fuel + 1) F = dpllF fuel (simplify F (-bestLit F)) := by
              simp [dpllF, hnil, hemp, hunit, hcnt, hb1]
            have hcost : dcostF (fuel + 1) F = 1 + dcostF fuel (simplify F (bestLit F)) +
                dcostF fuel (simplify F (-bestLit F)) := by
              simp [dcostF, hnil, hemp, hunit, hcnt, hb1]
            rw [hgoalL, hgoalR, hcost]
            simp only [Prod.mk.injEq]
            exact ⟨trivial, by omega⟩

/-- For every satisfiable formula there is a finite budget at which
`solveDPLL` answers `true`. -/
theorem solveDPLL_complete (F : Formula) (n : Nat)
    (hsat : ∃ a : List Bool, countErrors F a = 0) :
    ∃ L s : Nat, solveDPLL F n L = (true, s) := by
  obtain ⟨a, ha⟩ := hsat
  have hdp : dpllF (litCount F + 1) F = true :=
    dpllF_complete (litCount F + 1) F (by omega) ⟨_, satF_of_countErrors_zero ha⟩
  refine ⟨dcostF (litCount F + 1) F, dcostF (litCount F + 1) F, ?_⟩
  have h := runDPLL_eq_dpllF (dcostF (litCount F + 1) F) (litCount F + 1)
    (dcostF (litCount F + 1) F + 2) 0 F (by omega) (by omega) (by omega)
  rw [solveDPLL, h, hdp, Nat.zero_add]

/-- Budget monotonicity at the `solveDPLL` interface. -/
theorem solveDPLL_mono (F : Formula) (n L1 L2 s : Nat) (h12 : L1 ≤ L2)
    (h : solveDPLL F n L1 = (true, s)) : solveDPLL F n L2 = (true, s) := by
  have hs := runDPLL_true_steps_le L1 (L1 + 2) 0 F s h
  exact runDPLL_limit_mono L1 L2 h12 (L1 + 2) (L2 + 2) 0 F true s
    (by omega) (by omega) h (by omega)

/-! ### Generator shape lemmas -/

theorem drawnVar_bounds {n : Nat} {q : ℚ} (hn : 1 ≤ n) (h0 : 0 ≤ q) (h1 : q < 1) :
    1 ≤ ⌊q * n⌋ + 1 ∧ ⌊q * n⌋ + 1 ≤ (n : Int) := by
  have hfl : (0 : Int) ≤ ⌊q * n⌋ := Int.floor_nonneg.mpr (by positivity)
  have hfu : ⌊q * n⌋ < (n : Int) := by
    rw [Int.floor_lt]
    have hnpos : (0:ℚ) < n := by exact_mod_cast hn
    push_cast
    nlinarith
  omega

theorem buildClause_shape (n : Nat) (rand : Nat → ℚ) (hn : 1 ≤ n) (hr : randInRange rand) :
    ∀ fuel cursor cl used c cursor',
      buildClause n rand fuel cursor cl used = some (c, cursor') →
      cl.length ≤ 3 →
      (∀ l ∈ cl, ((l.natAbs : Int) ∈ used)) →
      (cl.map Int.natAbs).Nodup →
      (∀ l ∈ cl, 1 ≤ l.natAbs ∧ l.natAbs ≤ n) →
      clauseWellFormed n c := by
  intro fuel
  induction fuel with
  | zero => intro cursor cl used c cursor' h; simp [buildClause] at h
  | succ fuel ih =>
    intro cursor cl used c cursor' h hlen hused hnodup hrange
    by_cases hcont : cl.length < 3
    · rw [buildClause, if_pos hcont] at h
      by_cases hv : (⌊rand cursor * n⌋ + 1 : Int) ∈ used
      · rw [if_pos hv] at h
        exact ih _ _ _ _ _ h hlen hused hnodup hrange
      · rw [if_neg hv] at h
        obtain ⟨hq0, hq1⟩ := hr cursor
        obtain ⟨hv1, hv2⟩ := drawnVar_bounds hn hq0 hq1
        set v : Int := ⌊rand cursor * n⌋ + 1 with hvdef
        set lit : Int := if rand (cursor + 1) < 1 / 2 then v else -v with hlitdef
        have hlitabs : (lit.natAbs : Int) = v := by
          rw [hlitdef]
          split
          · rw [Int.natAbs_of_nonneg (by omega)]
          · rw [Int.natAbs_neg, Int.natAbs_of_nonneg (by omega)]
        refine ih _ _ _ _ _ h ?_ ?_ ?_ ?_
        · simp; omega
        · intro l hl
          rcases List.mem_append.mp hl with hmem | hmem
          · exact List.mem_cons_of_mem _ (hused l hmem)
          · obtain rfl := List.mem_singleton.mp hmem
            rw [hlitabs]
            exact List.mem_cons_self v used
        · rw [List.map_append, List.nodup_append]
          refine ⟨hnodup, List.nodup_singleton _, ?_⟩
          intro x hx hx'
          simp only [List.map_cons, List.map_nil, List.mem_singleton] at hx'
          subst hx'
          have : ((lit.natAbs : Int)) ∈ used := by
            obtain ⟨l, hlmem, hleq⟩ := List.mem_map.mp hx
            have := hused l hlmem
            rwa [hleq] at this
          rw [hlitabs] at this
          exact hv this
        · intro l hl
          rcases List.mem_append.mp hl with hmem | hmem
          · exact hrange l hmem
          · obtain rfl := List.mem_singleton.mp hmem
            constructor <;> omega
    · rw [buildClause, if_neg hcont] at h
      obtain ⟨rfl, -⟩ := Prod.mk.injEq .. ▸ Option.some.injEq .. ▸ h
      exact ⟨by omega, hnodup, hrange⟩

theorem buildFormula_shape (n : Nat) (rand : Nat → ℚ) (fuel : Nat) (hn : 1 ≤ n)
    (hr : randInRange rand) :
    ∀ m cursor F cursor', buildFormula n rand fuel m cursor = some (F, cursor') →
      formulaWellFormed n m F := by
  intro m
  induction m with
  | zero =>
    intro cursor F cursor' h
    simp only [buildFormula] at h
    obtain ⟨rfl, -⟩ := Prod.mk.injEq .. ▸ Option.some.injEq .. ▸ h
    exact ⟨rfl, by intro c hc; cases hc⟩
  | succ m ih =>
    intro cursor F cursor' h
    simp only [buildFormula] at h
    rcases h1 : buildClause n rand fuel cursor [] [] with - | ⟨clause, cursor1⟩
    · rw [h1] at h; cases h
    simp only [h1] at h
    rcases h2 : buildFormula n rand fuel m cursor1 with - | ⟨F', cursor2⟩
    · simp only [h2] at h; cases h
    simp only [h2, Option.some.injEq, Prod.mk.injEq] at h
    obtain ⟨rfl, -⟩ := h
    obtain ⟨hlen, hwf⟩ := ih cursor1 F' cursor2 h2
    have hcl : clauseWellFormed n clause :=
      buildClause_shape n rand hn hr fuel cursor [] [] clause cursor1 h1
        (by simp) (by simp) (by simp) (by simp)
    refine ⟨by simp [hlen], ?_⟩
    intro c hc
    rcases List.mem_cons.mp hc with rfl | hmem
    · exact hcl
    · exact hwf c hmem

/-- Whenever the generator terminates on an admissible stream, the result
has exactly `m` clauses of 3 distinct in-range variables each. -/
theorem generateRandom3SAT_wellFormed {n m : Nat} {rand : Nat → ℚ} {fuel : Nat} {F : Formula}
    (hn : 3 ≤ n) (hr : randInRange rand)
    (h : generateRandom3SAT n m rand fuel = some F) : formulaWellFormed n m F := by
  unfold generateRandom3SAT at h
  rcases h1 : buildFormula n rand fuel m 0 with - | ⟨F', cursor⟩
  · rw [h1] at h; cases h
  rw [h1] at h
  obtain rfl := Option.some.injEq .. ▸ h
  exact buildFormula_shape n rand fuel (by omega) hr m 0 F' cursor h1

/-! ### The generator can spin forever on a degenerate stream -/

theorem buildClause_const_zero_spins :
    ∀ fuel cursor, buildClause 3 (fun _ => (0 : ℚ)) fuel cursor [1] [1] = none := by
  intro fuel
  induction fuel with
  | zero => intro cursor; rfl
  | succ fuel ih =>
    intro cursor
    rw [buildClause, if_pos (by simp)]
    rw [if_pos (by norm_num)]
    exact ih (cursor + 1)

theorem buildClause_const_zero_none :
    ∀ fuel cursor, buildClause 3 (fun _ => (0 : ℚ)) fuel cursor [] [] = none := by
  intro fuel
  cases fuel with
  | zero => intro cursor; rfl
  | succ fuel =>
    intro cursor
    rw [buildClause, if_pos (by simp)]
    rw [if_neg (by norm_num)]
    rw [if_pos (by norm_num)]
    have h1 : (⌊(0 : ℚ) * (3:Nat)⌋ + 1 : Int) = 1 := by norm_num
    rw [h1]
    exact buildClause_const_zero_spins fuel (cursor + 2)

theorem generateRandom3SAT_const_zero :
    ∀ fuel, generateRandom3SAT 3 1 (fun _ => (0 : ℚ)) fuel = none := by
  intro fuel
  unfold generateRandom3SAT buildFormula
  rw [buildClause_const_zero_none fuel 0]
  rfl

theorem not_generatorAlwaysTerminates : ¬ generatorAlwaysTerminates := by
  intro h
  obtain ⟨fuel, F, heq, -⟩ := h 3 1 (by omega) (fun _ => (0 : ℚ)) (fun i => by norm_num)
  rw [generateRandom3SAT_const_zero fuel] at heq
  cases heq

/-! ### Annealing-step lemmas -/

/-- Unfolding of `runSimulatedAnnealingStep` in the non-degenerate case. -/
theorem annealStep_eq (formula : Formula) (assignment : List Bool) (currentErrors : Formula)
    (temperature : ℝ) (rand : Nat → ℚ) (cursor : Nat)
    (hne : ¬ currentErrors.length = 0) :
    runSimulatedAnnealingStep formula assignment currentErrors temperature rand cursor =
      (let randomClause := currentErrors.getD (⌊rand cursor * currentErrors.length⌋).toNat []
      let randomLit := randomClause.getD (⌊rand (cursor + 1) * randomClause.length⌋).toNat 0
      let varIdx := randomLit.natAbs - 1
      let candidateAssignment := assignment.set varIdx (!assignment.getD varIdx false)
      let currentCost : Int := currentErrors.length
      let newCost : Int := countErrors formula candidateAssignment
      let delta := newCost - currentCost
      if delta < 0 then
        (⟨candidateAssignment, (varIdx : Int) + 1, true, delta⟩, cursor + 2)
      else
        let probability := Real.exp (-(delta : ℝ) / temperature)
        if ((rand (cursor + 2) : ℚ) : ℝ) < probability then
          (⟨candidateAssignment, (varIdx : Int) + 1, true, delta⟩, cursor + 3)
        else
          (⟨assignment, (varIdx : Int) + 1, false, delta⟩, cursor + 3)) := by
  rw [runSimulatedAnnealingStep, if_neg hne]

/-- A rejected move returns the original assignment, untouched. -/
theorem annealStep_rejected_frame (formula : Formula) (assignment : List Bool)
    (currentErrors : Formula) (temperature : ℝ) (rand : Nat → ℚ) (cursor : Nat)
    (h : (runSimulatedAnnealingStep formula assignment currentErrors temperature rand
      cursor).1.accepted = false) :
    (runSimulatedAnnealingStep formula assignment currentErrors temperature rand
      cursor).1.newAssignment = assignment := by
  by_cases h0 : currentErrors.length = 0
  · rw [runSimulatedAnnealingStep, if_pos h0] at h
    cases h
  · rw [annealStep_eq formula assignment currentErrors temperature rand cursor h0] at h ⊢
    dsimp only at h ⊢
    split_ifs at h ⊢ with hd hp
    rfl

/-- The index data of the candidate move: the drawn clause is a real,
nonempty clause of `currentErrors` and the drawn literal denotes a
variable of the assignment (under the `[0,1)` random contract and the
data-model invariant that literals index the assignment vector). -/
theorem annealStep_var_bounds (assignment : List Bool) (currentErrors : Formula)
    (rand : Nat → ℚ) (cursor : Nat)
    (hne : ¬ currentErrors.length = 0) (hr : randInRange rand)
    (hwf : ∀ c ∈ currentErrors, c ≠ [] ∧ ∀ l ∈ c, 1 ≤ l.natAbs ∧ l.natAbs ≤ assignment.length) :
    1 ≤ ((currentErrors.getD (⌊rand cursor * currentErrors.length⌋).toNat []).getD
        (⌊rand (cursor + 1) *
          (currentErrors.getD (⌊rand cursor * currentErrors.length⌋).toNat []).length⌋).toNat
        0).natAbs ∧
      ((currentErrors.getD (⌊rand cursor * currentErrors.length⌋).toNat []).getD
        (⌊rand (cursor + 1) *
          (currentErrors.getD (⌊rand cursor * currentErrors.length⌋).toNat []).length⌋).toNat
        0).natAbs ≤ assignment.length := by
  obtain ⟨hq0, hq1⟩ := hr cursor
  have hlen : 1 ≤ currentErrors.length := by omega
  have hk1 : (⌊rand cursor * currentErrors.length⌋).toNat < currentErrors.length := by
    have h1 : (0 : Int) ≤ ⌊rand cursor * currentErrors.length⌋ :=
      Int.floor_nonneg.mpr (by positivity)
    have h2 : ⌊rand cursor * currentErrors.length⌋ < (currentErrors.length : Int) := by
      rw [Int.floor_lt]
      have : (0:ℚ) < currentErrors.length := by exact_mod_cast hlen
      push_cast
      nlinarith
    omega
  have hclmem : currentErrors.getD (⌊rand cursor * currentErrors.length⌋).toNat [] ∈
      currentErrors := by
    rw [List.getD_eq_getElem _ _ hk1]
    exact List.getElem_mem hk1
  obtain ⟨hclne, hclrange⟩ := hwf _ hclmem
  set cl := currentErrors.getD (⌊rand cursor * currentErrors.length⌋).toNat []
  obtain ⟨hq0', hq1'⟩ := hr (cursor + 1)
  have hcllen : 1 ≤ cl.length := by
    rcases cl with _ | _
    · exact absurd rfl hclne
    · simp
  have hk2 : (⌊rand (cursor + 1) * cl.length⌋).toNat < cl.length := by
    have h1 : (0 : Int) ≤ ⌊rand (cursor + 1) * cl.length⌋ :=
      Int.floor_nonneg.mpr (by positivity)
    have h2 : ⌊rand (cursor + 1) * cl.length⌋ < (cl.length : Int) := by
      rw [Int.floor_lt]
      have : (0:ℚ) < cl.length := by exact_mod_cast hcllen
      push_cast
      nlinarith
    omega
  have hlitmem : cl.getD (⌊rand (cursor + 1) * cl.length⌋).toNat 0 ∈ cl := by
    rw [List.getD_eq_getElem _ _ hk2]
    exact List.getElem_mem hk2
  exact hclrange _ hlitmem

theorem getD_set_self {l : List Bool} {i : Nat} {b : Bool} (h : i < l.length) :
    (l.set i b).getD i false = b := by
  rw [List.getD_eq_getElem _ _ (by simpa using h)]
  exact List.getElem_set_self (by simpa using h)

theorem getD_set_ne {l : List Bool} {i k : Nat} {b : Bool} (h : k ≠ i) :
    (l.set i b).getD k false = l.getD k false := by
  by_cases hk : k < l.length
  · rw [List.getD_eq_getElem _ _ (by simpa using hk), List.getD_eq_getElem _ _ hk]
    exact List.getElem_set_ne (Ne.symm h) _
  · rw [List.getD_eq_default _ _ (by simp; omega), List.getD_eq_default _ _ (by omega)]

/-- An accepted move (with unsatisfied clauses present) flips exactly the
entry `flippedVar - 1` of the assignment. -/
theorem annealStep_accepted_flip (formula : Formula) (assignment : List Bool)
    (currentErrors : Formula) (temperature : ℝ) (rand : Nat → ℚ) (cursor : Nat)
    (hne : ¬ currentErrors.length = 0) (hr : randInRange rand)
    (hwf : ∀ c ∈ currentErrors, c ≠ [] ∧ ∀ l ∈ c, 1 ≤ l.natAbs ∧ l.natAbs ≤ assignment.length)
    (hacc : (runSimulatedAnnealingStep formula assignment currentErrors temperature rand
      cursor).1.accepted = true) :
    1 ≤ (runSimulatedAnnealingStep formula assignment currentErrors temperature rand
        cursor).1.flippedVar ∧
    ((runSimulatedAnnealingStep formula assignment currentErrors temperature rand
        cursor).1.flippedVar.toNat - 1) < assignment.length ∧
    (runSimulatedAnnealingStep formula assignment currentErrors temperature rand
        cursor).1.newAssignment.length = assignment.length ∧
    (runSimulatedAnnealingStep formula assignment currentErrors temperature rand
        cursor).1.newAssignment.getD
        ((runSimulatedAnnealingStep formula assignment currentErrors temperature rand
          cursor).1.flippedVar.toNat - 1) false
      = !(assignment.getD
        ((runSimulatedAnnealingStep formula assignment currentErrors temperature rand
          cursor).1.flippedVar.toNat - 1) false) ∧
    ∀ k : Nat, k ≠ (runSimulatedAnnealingStep formula assignment currentErrors temperature rand
        cursor).1.flippedVar.toNat - 1 →
      (runSimulatedAnnealingStep formula assignment currentErrors temperature rand
        cursor).1.newAssignment.getD k false = assignment.getD k false := by
  obtain ⟨hv1, hv2⟩ := annealStep_var_bounds assignment currentErrors rand cursor hne hr hwf
  rw [annealStep_eq formula assignment currentErrors temperature rand cursor hne] at hacc ⊢
  dsimp only at hacc ⊢
  set lit := (currentErrors.getD (⌊rand cursor * currentErrors.length⌋).toNat []).getD
      (⌊rand (cursor + 1) *
        (currentErrors.getD
          (⌊rand cursor * currentErrors.length⌋).toNat []).length⌋).toNat 0 with hlit
  have hidx : ((((lit.natAbs - 1 : Nat)) : Int) + 1).toNat - 1 = lit.natAbs - 1 := by omega
  have hvlt : lit.natAbs - 1 < assignment.length := by omega
  split_ifs at hacc ⊢ with hd hp
  · exact ⟨by dsimp only; omega, by dsimp only; rw [hidx]; omega,
      by dsimp only; simp,
      by dsimp only; rw [hidx]; exact getD_set_self hvlt,
      by dsimp only; intro k hk; rw [hidx] at hk; exact getD_set_ne hk⟩
  · exact ⟨by dsimp only; omega, by dsimp only; rw [hidx]; omega,
      by dsimp only; simp,
      by dsimp only; rw [hidx]; exact getD_set_self hvlt,
      by dsimp only; intro k hk; rw [hidx] at hk; exact getD_set_ne hk⟩

/-- The Metropolis decision of `runSimulatedAnnealingStep`, bit for bit:
`delta` is the candidate's cost minus the current cost, improvements are
always accepted, and for `delta ≥ 0` the move is accepted exactly when
the third draw is strictly below `exp(-delta / temperature)`. -/
theorem annealStep_metropolis (formula : Formula) (assignment : List Bool)
    (currentErrors : Formula) (temperature : ℝ) (rand : Nat → ℚ) (cursor : Nat)
    (hne : ¬ currentErrors.length = 0) :
    (runSimulatedAnnealingStep formula assignment currentErrors temperature rand
        cursor).1.delta =
      (countErrors formula
        (assignment.set
          (((currentErrors.getD (⌊rand cursor * currentErrors.length⌋).toNat []).getD
            (⌊rand (cursor + 1) *
              (currentErrors.getD
                (⌊rand cursor * currentErrors.length⌋).toNat []).length⌋).toNat
            0).natAbs - 1)
          (!assignment.getD
            (((currentErrors.getD (⌊rand cursor * currentErrors.length⌋).toNat []).getD
              (⌊rand (cursor + 1) *
                (currentErrors.getD
                  (⌊rand cursor * currentErrors.length⌋).toNat []).length⌋).toNat
              0).natAbs - 1) false)) : Int) - (currentErrors.length : Int) ∧
    ((runSimulatedAnnealingStep formula assignment currentErrors temperature rand
        cursor).1.delta < 0 →
      (runSimulatedAnnealingStep formula assignment currentErrors temperature rand
        cursor).1.accepted = true) ∧
    (0 ≤ (runSimulatedAnnealingStep formula assignment currentErrors temperature rand
        cursor).1.delta →
      ((runSimulatedAnnealingStep formula assignment currentErrors temperature rand
          cursor).1.accepted = true ↔
        ((rand (cursor + 2) : ℚ) : ℝ) <
          Real.exp (-((runSimulatedAnnealingStep formula assignment currentErrors temperature
            rand cursor).1.delta : ℝ) / temperature))) := by
  rw [annealStep_eq formula assignment currentErrors temperature rand cursor hne]
  dsimp only
  split_ifs with hd hp
  · exact ⟨rfl, fun _ => rfl, fun hge => absurd hd (not_lt.mpr hge)⟩
  · exact ⟨rfl, fun _ => rfl, fun _ => iff_of_true rfl hp⟩
  · refine ⟨rfl, fun hlt => absurd hlt hd, fun _ => iff_of_false (by simp) hp⟩

/-! ### Structural-autopsy invariants -/

/-- The annealing loop never changes the number of per-variable flip
counters (in particular `flipCounts` keeps length `n`). -/
theorem autopsyLoop_flipCounts_length (formula : Formula) (rand : Nat → ℚ) :
    ∀ k st, (autopsyLoop formula rand k st).flipCounts.length = st.flipCounts.length := by
  intro k
  induction k with
  | zero => intro st; rfl
  | succ k ih =>
    intro st
    rw [autopsyLoop]
    dsimp only
    split_ifs
    all_goals try rfl
    all_goals (rw [ih]; try simp [List.length_set])

/-- Output invariants of the autopsy core: `totalVars = n`, the frozen
count is the number of variables whose flip count stayed at or below
0.5% of the step budget, the rigidity is that count over `n`, it lies in
`[0,1]`, and rounding `rigidity * totalVars` recovers the count. -/
theorem autopsyCore_spec (n : Nat) (alpha : ℚ) (formula : Formula) (rand : Nat → ℚ)
    (cursor : Nat) (hn : 0 < n) :
    (runStructuralAutopsyCore n alpha formula rand cursor).totalVars = n ∧
    (runStructuralAutopsyCore n alpha formula rand cursor).frozenVarsCount ≤ n ∧
    (runStructuralAutopsyCore n alpha formula rand cursor).backboneRigidity =
      ((runStructuralAutopsyCore n alpha formula rand cursor).frozenVarsCount : ℚ) / (n : ℚ) ∧
    0 ≤ (runStructuralAutopsyCore n alpha formula rand cursor).backboneRigidity ∧
    (runStructuralAutopsyCore n alpha formula rand cursor).backboneRigidity ≤ 1 ∧
    round ((runStructuralAutopsyCore n alpha formula rand cursor).backboneRigidity *
        ((runStructuralAutopsyCore n alpha formula rand cursor).totalVars : ℚ)) =
      ((runStructuralAutopsyCore n alpha formula rand cursor).frozenVarsCount : Int) ∧
    (runStructuralAutopsyCore n alpha formula rand cursor).frozenVarsCount =
      ((autopsyLoop formula rand 2000
        ⟨createAgentState n rand cursor, List.replicate n 0, ⊤, 2, cursor + n⟩).flipCounts.filter
          (fun c : Nat => decide ((c : ℚ) ≤ 2000 * (5 / 1000)))).length := by
  have hnq : ((n : ℚ)) ≠ 0 := by
    simpa using Nat.pos_iff_ne_zero.mp hn
  have hcount : (runStructuralAutopsyCore n alpha formula rand cursor).frozenVarsCount =
      ((autopsyLoop formula rand 2000
        ⟨createAgentState n rand cursor, List.replicate n 0, ⊤, 2, cursor + n⟩).flipCounts.filter
          (fun c : Nat => decide ((c : ℚ) ≤ 2000 * (5 / 1000)))).length := rfl
  have hle : (runStructuralAutopsyCore n alpha formula rand cursor).frozenVarsCount ≤ n := by
    rw [hcount]
    calc ((autopsyLoop formula rand 2000
        ⟨createAgentState n rand cursor, List.replicate n 0, ⊤, 2, cursor + n⟩).flipCounts.filter
          (fun c : Nat => decide ((c : ℚ) ≤ 2000 * (5 / 1000)))).length
        ≤ (autopsyLoop formula rand 2000
            ⟨createAgentState n rand cursor, List.replicate n 0, ⊤, 2,
              cursor + n⟩).flipCounts.length := List.length_filter_le _ _
      _ = n := by rw [autopsyLoop_flipCounts_length]; simp
  have hrig : (runStructuralAutopsyCore n alpha formula rand cursor).backboneRigidity =
      ((runStructuralAutopsyCore n alpha formula rand cursor).frozenVarsCount : ℚ) / (n : ℚ) :=
    rfl
  have htot : (runStructuralAutopsyCore n alpha formula rand cursor).totalVars = n := rfl
  refine ⟨htot, hle, hrig, ?_, ?_, ?_, hcount⟩
  · rw [hrig]
    positivity
  · rw [hrig]
    rw [div_le_one (by exact_mod_cast hn)]
    exact_mod_cast hle
  · rw [hrig, htot, div_mul_cancel₀ _ hnq]
    exact round_natCast _

/-! ### Regression on the concrete point set {(10,5),(20,25),(30,125)}

The data is `y = 5^(n/10)` (pure exponential), so the log-log fit is not
perfect: the exact polynomial R² is `3·(log 3)² / (4·((log 2)² - log 2·log 3 + (log 3)²))
≈ 0.9777`. -/

theorem log_ten : Real.log 10 = Real.log 2 + Real.log 5 := by
  rw [show (10:ℝ) = 2 * 5 by norm_num, Real.log_mul (by norm_num) (by norm_num)]

theorem log_twenty : Real.log 20 = 2 * Real.log 2 + Real.log 5 := by
  rw [show (20:ℝ) = 2 * (2 * 5) by norm_num, Real.log_mul (by norm_num) (by norm_num),
    Real.log_mul (by norm_num) (by norm_num)]
  ring

theorem log_thirty : Real.log 30 = Real.log 2 + Real.log 3 + Real.log 5 := by
  rw [show (30:ℝ) = 2 * (3 * 5) by norm_num, Real.log_mul (by norm_num) (by norm_num),
    Real.log_mul (by norm_num) (by norm_num)]
  ring

theorem log_twentyfive : Real.log 25 = 2 * Real.log 5 := by
  rw [show (25:ℝ) = 5 ^ (2:Nat) by norm_num, Real.log_pow]
  push_cast
  ring

theorem log_onetwentyfive : Real.log 125 = 3 * Real.log 5 := by
  rw [show (125:ℝ) = 5 ^ (3:Nat) by norm_num, Real.log_pow]
  push_cast
  ring

/-- `log₂ 3 > 19/12`, from `3¹² > 2¹⁹`. -/
theorem log_bound_lower : 19 * Real.log 2 < 12 * Real.log 3 := by
  have h := Real.log_lt_log (by positivity : (0:ℝ) < 2 ^ (19:Nat))
    (by norm_num : (2:ℝ) ^ (19:Nat) < 3 ^ (12:Nat))
  rw [Real.log_pow, Real.log_pow] at h
  push_cast at h
  linarith

/-- `log₂ 3 < 27/17`, from `3¹⁷ < 2²⁷`. -/
theorem log_bound_upper : 17 * Real.log 3 < 27 * Real.log 2 := by
  have h := Real.log_lt_log (by positivity : (0:ℝ) < 3 ^ (17:Nat))
    (by norm_num : (3:ℝ) ^ (17:Nat) < 2 ^ (27:Nat))
  rw [Real.log_pow, Real.log_pow] at h
  push_cast at h
  linarith

theorem quadDenom_pos : 0 < Real.log 2 ^ 2 - Real.log 2 * Real.log 3 + Real.log 3 ^ 2 := by
  have ha := Real.log_pos (by norm_num : (1:ℝ) < 2)
  have hb := Real.log_pos (by norm_num : (1:ℝ) < 3)
  nlinarith [sq_nonneg (Real.log 2 - Real.log 3), mul_pos ha hb]

/-- Exact value of the polynomial R² on the concrete scenario points. -/
theorem polyR2_concrete :
    (calculateScalingRegression [⟨10, 5⟩, ⟨20, 25⟩, ⟨30, 125⟩]).polynomialR2 =
      3 * Real.log 3 ^ 2 /
        (4 * (Real.log 2 ^ 2 - Real.log 2 * Real.log 3 + Real.log 3 ^ 2)) := by
  have hc := Real.log_pos (by norm_num : (1:ℝ) < 5)
  have hD := quadDenom_pos
  simp only [calculateScalingRegression, getRegressionCoeffs, List.map_cons, List.map_nil,
    List.sum_cons, List.sum_nil, List.length_cons, List.length_nil, Real.log_exp,
    log_ten, log_twenty, log_thirty, log_twentyfive, log_onetwentyfive, add_zero]
  push_cast
  have hPrw : 3 * ((Real.log 2 + Real.log 5) * Real.log 5 +
        ((2 * Real.log 2 + Real.log 5) * (2 * Real.log 5) +
          (Real.log 2 + Real.log 3 + Real.log 5) * (3 * Real.log 5))) -
      (Real.log 2 + Real.log 5 + (2 * Real.log 2 + Real.log 5 +
        (Real.log 2 + Real.log 3 + Real.log 5))) *
      (Real.log 5 + (2 * Real.log 5 + 3 * Real.log 5)) =
      3 * (Real.log 3 * Real.log 5) := by ring
  have hQrw : 3 * ((Real.log 2 + Real.log 5) * (Real.log 2 + Real.log 5) +
        ((2 * Real.log 2 + Real.log 5) * (2 * Real.log 2 + Real.log 5) +
          (Real.log 2 + Real.log 3 + Real.log 5) * (Real.log 2 + Real.log 3 + Real.log 5))) -
      (Real.log 2 + Real.log 5 + (2 * Real.log 2 + Real.log 5 +
        (Real.log 2 + Real.log 3 + Real.log 5))) *
      (Real.log 2 + Real.log 5 + (2 * Real.log 2 + Real.log 5 +
        (Real.log 2 + Real.log 3 + Real.log 5))) =
      2 * (Real.log 2 ^ 2 - Real.log 2 * Real.log 3 + Real.log 3 ^ 2) := by ring
  have hTrw : (Real.log 5 - (Real.log 5 + (2 * Real.log 5 + 3 * Real.log 5)) / 3) ^ 2 +
      ((2 * Real.log 5 - (Real.log 5 + (2 * Real.log 5 + 3 * Real.log 5)) / 3) ^ 2 +
        (3 * Real.log 5 - (Real.log 5 + (2 * Real.log 5 + 3 * Real.log 5)) / 3) ^ 2) =
      2 * Real.log 5 ^ 2 := by ring
  rw [hPrw, hQrw, hTrw]
  field_simp [hD.ne', hc.ne']
  ring

theorem polyR2_concrete_lt :
    (calculateScalingRegression [⟨10, 5⟩, ⟨20, 25⟩, ⟨30, 125⟩]).polynomialR2 < 0.99 := by
  rw [polyR2_concrete]
  have hD := quadDenom_pos
  have ha := Real.log_pos (by norm_num : (1:ℝ) < 2)
  have hb := Real.log_pos (by norm_num : (1:ℝ) < 3)
  rw [div_lt_iff₀ (by positivity)]
  nlinarith [sq_nonneg (17 * Real.log 3 - 27 * Real.log 2),
    mul_pos ha (sub_pos.mpr log_bound_upper), mul_pos ha ha]

theorem polyR2_concrete_gt :
    0.97 < (calculateScalingRegression [⟨10, 5⟩, ⟨20, 25⟩, ⟨30, 125⟩]).polynomialR2 := by
  rw [polyR2_concrete]
  have hD := quadDenom_pos
  have ha := Real.log_pos (by norm_num : (1:ℝ) < 2)
  have hb := Real.log_pos (by norm_num : (1:ℝ) < 3)
  rw [lt_div_iff₀ (by positivity)]
  nlinarith [mul_pos (sub_pos.mpr log_bound_lower) (sub_pos.mpr log_bound_upper),
    mul_pos (sub_pos.mpr log_bound_lower)
      (by positivity : (0:ℝ) < 12 * Real.log 3 + 19 * Real.log 2),
    mul_pos ha ha, mul_pos ha hb]

/-! ### The adversarial-scaling classification -/

theorem runAdversarialScaling_spec (scanPoints : List (ℝ × ℝ)) (deceptivePass : Bool) :
    (runAdversarialScaling scanPoints deceptivePass).scanPoints = scanPoints ∧
    (runAdversarialScaling scanPoints deceptivePass).deceptivePass = deceptivePass ∧
    (runAdversarialScaling scanPoints deceptivePass).slope = fitSlope scanPoints ∧
    ((runAdversarialScaling scanPoints deceptivePass).diagnosis =
        AdversarialDiagnosis.robustScaling ↔
      robustSlopeThreshold ≤ fitSlope scanPoints) ∧
    ((runAdversarialScaling scanPoints deceptivePass).diagnosis =
        AdversarialDiagnosis.errorDecay ↔
      fitSlope scanPoints < robustSlopeThreshold ∧
        collapseSlopeThreshold ≤ fitSlope scanPoints) ∧
    ((runAdversarialScaling scanPoints deceptivePass).diagnosis =
        AdversarialDiagnosis.catastrophicCollapse ↔
      fitSlope scanPoints < collapseSlopeThreshold) := by
  unfold runAdversarialScaling
  dsimp only
  split_ifs with h1 h2
  · refine ⟨rfl, rfl, rfl, ?_, ?_, ?_⟩
    · simp [h1]
    · simp
      intro h
      exact absurd h1 (not_le.mpr h)
    · simp
      exact le_trans (by norm_num [collapseSlopeThreshold, robustSlopeThreshold]) h1
  · refine ⟨rfl, rfl, rfl, ?_, ?_, ?_⟩
    · simp [h1]
    · simp [not_le.mp h1, h2]
    · simp
      exact h2
  · refine ⟨rfl, rfl, rfl, ?_, ?_, ?_⟩
    · simp [h1]
    · simp [not_le.mp h2]
    · simp [not_le.mp h2]

/-- Concrete accepted step: on `[[1]]` with assignment `[false]` the
candidate flip satisfies the clause, so `delta = -1 < 0` and the move is
accepted on the improvement branch. -/
theorem annealStep_example_accepted :
    (runSimulatedAnnealingStep [[1]] [false] [[1]] 1 (fun _ => (0:ℚ)) 0).1.accepted = true := by
  rw [annealStep_eq _ _ _ _ _ _ (by decide)]
  norm_num [List.getD, countErrors, clauseSat, litSat, List.countP]
  decide

/-! ## The claims -/

/-- C1 counterexample: on the degenerate formula `[[0]]` (a clause holding
the literal `0`, which denotes no variable) `solveDPLL` reports
`satisfiable = true`, yet no boolean assignment satisfies the formula —
so soundness does not hold for *every* formula as stated. -/
theorem claim_C1_counterexample :
    solveDPLL [[0]] 1 20000 = (true, 2) ∧ ∀ a : List Bool, countErrors [[0]] a ≠ 0 := by
  refine ⟨by decide, ?_⟩
  intro a
  simp [countErrors, clauseSat, litSat, List.countP, List.countP.go]

/-- C1 (amended): soundness of the exact solver for formulas all of whose
literals are nonzero (i.e. denote actual variables): if
`solveDPLL f n stepLimit` returns `satisfiable = true` then some boolean
assignment satisfies every clause, i.e. `countErrors f a = 0`. -/
theorem claim_C1_amended (F : Formula) (n L s : Nat) (hnz : allLitsNonzero F)
    (h : solveDPLL F n L = (true, s)) : ∃ a : List Bool, countErrors F a = 0 :=
  solveDPLL_sound hnz h

theorem claim_C1_witness :
    allLitsNonzero [[1]] ∧ solveDPLL [[1]] 1 20000 = (true, 2) ∧
      ∃ a : List Bool, countErrors [[1]] a = 0 :=
  ⟨by simp [allLitsNonzero], by decide,
   claim_C1_amended [[1]] 1 20000 2 (by simp [allLitsNonzero]) (by decide)⟩

/-- C2: step-ceiling semantics of `solveDPLL` — every call made once the
counter is beyond the ceiling reports failure normally (returning
`satisfiable = false` with the incremented counter, never an error), and
whenever `solveDPLL` returns `satisfiable = true` its step count is
within the ceiling. -/
theorem claim_C2 :
    (∀ (limit fuel steps : Nat) (F : Formula), limit < steps + 1 →
      runDPLL limit fuel steps F = (false, steps + 1)) ∧
    ∀ (F : Formula) (n L s : Nat), solveDPLL F n L = (true, s) → s ≤ L :=
  ⟨fun limit fuel steps F h => runDPLL_of_limit_lt limit fuel steps F h,
   fun F _n L s h => runDPLL_true_steps_le L (L + 2) 0 F s h⟩

theorem claim_C2_witness :
    runDPLL 5 3 7 [[1]] = (false, 8) ∧ (2 : Nat) ≤ 20000 :=
  ⟨claim_C2.1 5 3 7 [[1]] (by omega), claim_C2.2 [[1]] 1 20000 2 (by decide)⟩

/-- C3: `solveDPLL` is monotonic in its budget — a success at ceiling `L1`
is reproduced verbatim at any ceiling `L2 ≥ L1` — and complete in the
limit: every satisfiable formula is reported satisfiable at some finite
ceiling. -/
theorem claim_C3 :
    (∀ (F : Formula) (n L1 L2 s : Nat), L1 ≤ L2 → solveDPLL F n L1 = (true, s) →
      solveDPLL F n L2 = (true, s)) ∧
    ∀ (F : Formula) (n : Nat), (∃ a : List Bool, countErrors F a = 0) →
      ∃ L s, solveDPLL F n L = (true, s) :=
  ⟨fun F n L1 L2 s h12 h => solveDPLL_mono F n L1 L2 s h12 h,
   fun F n hsat => solveDPLL_complete F n hsat⟩

theorem claim_C3_witness :
    solveDPLL [[1]] 1 20 = (true, 2) ∧ ∃ L s, solveDPLL [[1]] 1 L = (true, s) :=
  ⟨claim_C3.1 [[1]] 1 10 20 2 (by omega) (by decide),
   claim_C3.2 [[1]] 1 ⟨[true], by decide⟩⟩

/-- C4 counterexample: on the point set {(10,5),(20,25),(30,125)} the
regression module does *not* reach `polynomialR2 > 0.99`: the data is
pure exponential (`y = 5^(n/10)`), not the power law `0.005·n³` claimed
by the spec (which would give 40 and 135 at n = 20, 30), and the exact
polynomial R² is `3·(log 3)²/(4·((log 2)² - log 2·log 3 + (log 3)²)) ≈ 0.9777`. -/
theorem claim_C4_counterexample :
    ¬ (0.99 < (calculateScalingRegression [⟨10, 5⟩, ⟨20, 25⟩, ⟨30, 125⟩]).polynomialR2) :=
  not_lt.mpr (le_of_lt polyR2_concrete_lt)

/-- C4 (amended): feeding the regression module the point set
{(10,5),(20,25),(30,125)} yields `polynomialR2 > 0.97` (but below 0.99). -/
theorem claim_C4_amended :
    0.97 < (calculateScalingRegression [⟨10, 5⟩, ⟨20, 25⟩, ⟨30, 125⟩]).polynomialR2 ∧
    (calculateScalingRegression [⟨10, 5⟩, ⟨20, 25⟩, ⟨30, 125⟩]).polynomialR2 < 0.99 :=
  ⟨polyR2_concrete_gt, polyR2_concrete_lt⟩

/-- C5 (modelled from the spec, see `runAdversarialScaling`): the
adversarial-scaling probe fits a linear trend of prediction accuracy
versus `n` over its scan points and its three-valued diagnosis (robust /
decaying / collapsing) is determined exactly by the sign and magnitude
of the fitted slope relative to the two named thresholds. -/
theorem claim_C5 (scanPoints : List (ℝ × ℝ)) (deceptivePass : Bool) :
    (runAdversarialScaling scanPoints deceptivePass).scanPoints = scanPoints ∧
    (runAdversarialScaling scanPoints deceptivePass).deceptivePass = deceptivePass ∧
    (runAdversarialScaling scanPoints deceptivePass).slope = fitSlope scanPoints ∧
    ((runAdversarialScaling scanPoints deceptivePass).diagnosis =
        AdversarialDiagnosis.robustScaling ↔
      robustSlopeThreshold ≤ fitSlope scanPoints) ∧
    ((runAdversarialScaling scanPoints deceptivePass).diagnosis =
        AdversarialDiagnosis.errorDecay ↔
      fitSlope scanPoints < robustSlopeThreshold ∧
        collapseSlopeThreshold ≤ fitSlope scanPoints) ∧
    ((runAdversarialScaling scanPoints deceptivePass).diagnosis =
        AdversarialDiagnosis.catastrophicCollapse ↔
      fitSlope scanPoints < collapseSlopeThreshold) :=
  runAdversarialScaling_spec scanPoints deceptivePass

/-- C6 counterexample: the generator does *not* terminate for every
sequence of values from the random source — on the constant-zero stream
(all draws `0 ∈ [0,1)`) with `n = 3`, `m = 1` the clause-building `while`
loop redraws the variable `1` forever, so no fuel suffices. -/
theorem claim_C6_counterexample : ¬ generatorAlwaysTerminates :=
  not_generatorAlwaysTerminates

/-- C6 (amended): for every `n ≥ 3`, `m ≥ 0` and admissible random
sequence, *whenever* `generateRandom3SAT n m` terminates it returns a
formula of exactly `m` clauses, each holding exactly 3 literals whose
variables are pairwise distinct and lie in `[1, n]` (termination itself
holds only for streams that keep producing fresh variables, not for all
sequences). -/
theorem claim_C6_amended (n m : Nat) (rand : Nat → ℚ) (fuel : Nat) (F : Formula)
    (hn : 3 ≤ n) (hr : randInRange rand)
    (h : generateRandom3SAT n m rand fuel = some F) : formulaWellFormed n m F :=
  generateRandom3SAT_wellFormed hn hr h

theorem claim_C6_witness :
    (3 ≤ 3) ∧ randInRange (fun _ => (0:ℚ)) ∧
    generateRandom3SAT 3 0 (fun _ => (0:ℚ)) 1 = some [] ∧ formulaWellFormed 3 0 [] :=
  ⟨by omega, fun i => by norm_num, rfl,
   claim_C6_amended 3 0 (fun _ => (0:ℚ)) 1 [] (by omega) (fun i => by norm_num) rfl⟩

/-- C7: frame property of the annealing step — a rejected move returns the
input assignment unchanged, and an accepted move with nonempty
`unsatClauses` (under the `[0,1)` random contract and the data-model
invariant that clause literals index the assignment) returns an
assignment of the same length that differs from the input exactly at
index `flippedVar - 1`, where it is negated. -/
theorem claim_C7 (formula : Formula) (assignment : List Bool) (currentErrors : Formula)
    (temperature : ℝ) (rand : Nat → ℚ) (cursor : Nat) :
    ((runSimulatedAnnealingStep formula assignment currentErrors temperature rand
        cursor).1.accepted = false →
      (runSimulatedAnnealingStep formula assignment currentErrors temperature rand
        cursor).1.newAssignment = assignment) ∧
    (¬ currentErrors.length = 0 → randInRange rand →
      (∀ c ∈ currentErrors, c ≠ [] ∧ ∀ l ∈ c, 1 ≤ l.natAbs ∧ l.natAbs ≤ assignment.length) →
      (runSimulatedAnnealingStep formula assignment currentErrors temperature rand
        cursor).1.accepted = true →
      1 ≤ (runSimulatedAnnealingStep formula assignment currentErrors temperature rand
          cursor).1.flippedVar ∧
      ((runSimulatedAnnealingStep formula assignment currentErrors temperature rand
          cursor).1.flippedVar.toNat - 1) < assignment.length ∧
      (runSimulatedAnnealingStep formula assignment currentErrors temperature rand
          cursor).1.newAssignment.length = assignment.length ∧
      (runSimulatedAnnealingStep formula assignment currentErrors temperature rand
          cursor).1.newAssignment.getD
          ((runSimulatedAnnealingStep formula assignment currentErrors temperature rand
            cursor).1.flippedVar.toNat - 1) false
        = !(assignment.getD
          ((runSimulatedAnnealingStep formula assignment currentErrors temperature rand
            cursor).1.flippedVar.toNat - 1) false) ∧
      ∀ k : Nat, k ≠ (runSimulatedAnnealingStep formula assignment currentErrors temperature
          rand cursor).1.flippedVar.toNat - 1 →
        (runSimulatedAnnealingStep formula assignment currentErrors temperature rand
          cursor).1.newAssignment.getD k false = assignment.getD k false) :=
  ⟨fun h => annealStep_rejected_frame formula assignment currentErrors temperature rand cursor h,
   fun hne hr hwf hacc =>
    annealStep_accepted_flip formula assignment currentErrors temperature rand cursor
      hne hr hwf hacc⟩

theorem claim_C7_witness :
    (runSimulatedAnnealingStep [[1]] [false] [[1]] 1 (fun _ => (0:ℚ))
      0).1.newAssignment.length = ([false] : List Bool).length :=
  ((claim_C7 [[1]] [false] [[1]] 1 (fun _ => (0:ℚ)) 0).2 (by decide)
    (fun i => by norm_num) (by decide) annealStep_example_accepted).2.2.1

/-- C8: the Metropolis rule of the annealing step — with nonempty
`unsatClauses`, the returned `delta` is the candidate assignment's
unsatisfied-clause count minus `unsatClauses.length`; `delta < 0` always
accepts, and for `delta ≥ 0` the move is accepted exactly when the
uniform draw is strictly below `exp(-delta / temperature)`. -/
theorem claim_C8 (formula : Formula) (assignment : List Bool) (currentErrors : Formula)
    (temperature : ℝ) (rand : Nat → ℚ) (cursor : Nat)
    (hne : ¬ currentErrors.length = 0) :
    (runSimulatedAnnealingStep formula assignment currentErrors temperature rand
        cursor).1.delta =
      (countErrors formula
        (assignment.set
          (((currentErrors.getD (⌊rand cursor * currentErrors.length⌋).toNat []).getD
            (⌊rand (cursor + 1) *
              (currentErrors.getD
                (⌊rand cursor * currentErrors.length⌋).toNat []).length⌋).toNat
            0).natAbs - 1)
          (!assignment.getD
            (((currentErrors.getD (⌊rand cursor * currentErrors.length⌋).toNat []).getD
              (⌊rand (cursor + 1) *
                (currentErrors.getD
                  (⌊rand cursor * currentErrors.length⌋).toNat []).length⌋).toNat
              0).natAbs - 1) false)) : Int) - (currentErrors.length : Int) ∧
    ((runSimulatedAnnealingStep formula assignment currentErrors temperature rand
        cursor).1.delta < 0 →
      (runSimulatedAnnealingStep formula assignment currentErrors temperature rand
        cursor).1.accepted = true) ∧
    (0 ≤ (runSimulatedAnnealingStep formula assignment currentErrors temperature rand
        cursor).1.delta →
      ((runSimulatedAnnealingStep formula assignment currentErrors temperature rand
          cursor).1.accepted = true ↔
        ((rand (cursor + 2) : ℚ) : ℝ) <
          Real.exp (-((runSimulatedAnnealingStep formula assignment currentErrors temperature
            rand cursor).1.delta : ℝ) / temperature))) :=
  annealStep_metropolis formula assignment currentErrors temperature rand cursor hne

theorem claim_C8_witness :
    (¬ ([[1]] : Formula).length = 0) ∧
    (runSimulatedAnnealingStep [[1]] [false] [[1]] 1 (fun _ => (0:ℚ)) 0).1.delta =
      (countErrors [[1]]
        (([false] : List Bool).set
          (((([[1]] : Formula).getD (⌊(0:ℚ) * ([[1]] : Formula).length⌋).toNat []).getD
            (⌊(0:ℚ) *
              (([[1]] : Formula).getD
                (⌊(0:ℚ) * ([[1]] : Formula).length⌋).toNat []).length⌋).toNat
            0).natAbs - 1)
          (!([false] : List Bool).getD
            (((([[1]] : Formula).getD (⌊(0:ℚ) * ([[1]] : Formula).length⌋).toNat []).getD
              (⌊(0:ℚ) *
                (([[1]] : Formula).getD
                  (⌊(0:ℚ) * ([[1]] : Formula).length⌋).toNat []).length⌋).toNat
              0).natAbs - 1) false)) : Int) - (([[1]] : Formula).length : Int) :=
  ⟨by decide, (claim_C8 [[1]] [false] [[1]] 1 (fun _ => (0:ℚ)) 0 (by decide)).1⟩

/-- C9: every `AutopsySnapshot` returned by `runStructuralAutopsy` (for
`n ≥ 1`) has `backboneRigidity ∈ [0,1]`, `backboneRigidity` equal to
`frozenVarsCount / n`, `round(backboneRigidity · totalVars) =
frozenVarsCount` exactly, and `frozenVarsCount` counts exactly the
variables whose flip count over the run stayed at or below 0.5% of the
2000-step budget. -/
theorem claim_C9 (n : Nat) (alpha : ℚ) (rand : Nat → ℚ) (fuel : Nat) (snap : AutopsySnapshot)
    (hn : 0 < n) (h : runStructuralAutopsy n alpha rand fuel = some snap) :
    snap.totalVars = n ∧
    0 ≤ snap.backboneRigidity ∧ snap.backboneRigidity ≤ 1 ∧
    snap.backboneRigidity = (snap.frozenVarsCount : ℚ) / (n : ℚ) ∧
    round (snap.backboneRigidity * (snap.totalVars : ℚ)) = (snap.frozenVarsCount : Int) ∧
    ∃ formula cursor,
      buildFormula n rand fuel ((round ((n : ℚ) * alpha)).toNat) 0 = some (formula, cursor) ∧
      snap.frozenVarsCount =
        ((autopsyLoop formula rand 2000
          ⟨createAgentState n rand cursor, List.replicate n 0, ⊤, 2,
            cursor + n⟩).flipCounts.filter
              (fun c : Nat => decide ((c : ℚ) ≤ 2000 * (5 / 1000)))).length := by
  unfold runStructuralAutopsy at h
  rcases hb : buildFormula n rand fuel ((round ((n : ℚ) * alpha)).toNat) 0 with - | ⟨formula, cursor⟩
  · simp only [hb] at h
    cases h
  · simp only [hb, Option.some.injEq] at h
    subst h
    obtain ⟨h1, -, h3, h4, h5, h6, h7⟩ := autopsyCore_spec n alpha formula rand cursor hn
    exact ⟨h1, h4, h5, by rw [h3], h6, formula, cursor, rfl, h7⟩

theorem claim_C9_witness :
    (0 < 1) ∧ (runStructuralAutopsyCore 1 0 [] (fun _ => (0:ℚ)) 0).totalVars = 1 :=
  ⟨by omega,
   (claim_C9 1 0 (fun _ => (0:ℚ)) 1 (runStructuralAutopsyCore 1 0 [] (fun _ => (0:ℚ)) 0)
     (by omega) (by unfold runStructuralAutopsy; norm_num [buildFormula])).1⟩

/-- C10: the optimized counter and the list-building critic agree on all
inputs — `countErrors f a` is exactly the length of `getCriticErrors f a`. -/
theorem claim_C10 (formula : Formula) (assignment : List Bool) :
    countErrors formula assignment = (getCriticErrors formula assignment).length :=
  countErrors_eq_length_getCriticErrors formula assignment

end SatWorkbench